import Mathlib

/-!
# MTree: a shallow embedding of `src/MTree.cpp`

The C++ program implements an ordered index `MTree<DT>` (instantiated by `main` at `DT = int`)
made of a tree of `Node`s and a tombstone set `removedValues`.

Modelling decisions:

* keys are `Int`; the program only ever compares keys, so no machine arithmetic is involved;
* a `Node*` is `NodePtr` (either `null` or a node with its three fields), a `vector<Node*>`
  is `Children`; the two types are mutually inductive, which mirrors pointer ownership
  (no sharing, no cycles);
* `std::set<DT>` is a `Finset Int`;
* operations that can run into undefined behaviour in C++ (dereferencing a null pointer,
  indexing a vector past its end, `front()` of an empty vector) return `Option`, with `none`
  standing for undefined behaviour;
* the text written to `cout` by the operations is not part of the modelled state;
* `std::lower_bound` / `std::upper_bound` are library functions; they are modelled by their
  contract on partitioned ranges: the first position whose element is not less than
  (respectively is greater than) the searched value.
-/

/-! ## Data model -/

mutual
/-- A value of C++ type `Node*`: the null pointer, or a pointer to a `struct Node` holding
`values`, `children` and `isLeaf`. -/
inductive NodePtr where
  | null
  | node (values : List Int) (children : Children) (isLeaf : Bool)
/-- A value of C++ type `vector<Node*>`. -/
inductive Children where
  | nil
  | cons (head : NodePtr) (tail : Children)
end

/-- The class `MTree<int>`: its three data members. -/
structure MTree where
  root : NodePtr
  M : Int
  removedValues : Finset Int

namespace Children

/-- The child pointers as a list. -/
def toList : Children → List NodePtr
  | nil => []
  | cons c cs => c :: toList cs

/-- Vector indexing `children[i]`; `none` when `i` is past the end. -/
def get? : Children → Nat → Option NodePtr
  | nil, _ => none
  | cons c _, 0 => some c
  | cons _ cs, i + 1 => get? cs i

end Children

/-! ## Library functions -/

/-- Contract of `std::lower_bound` on a sorted vector: index of the first element that is
not less than `value` (the vector size when there is none). -/
def lower_bound : List Int → Int → Nat
  | [], _ => 0
  | x :: xs, value => if x < value then lower_bound xs value + 1 else 0

/-- Contract of `std::upper_bound` on a sorted vector: index of the first element that is
greater than `value` (the vector size when there is none). -/
def upper_bound : List Int → Int → Nat
  | [], _ => 0
  | x :: xs, value => if value < x then 0 else upper_bound xs value + 1

/-! ## `struct Node` member functions -/

namespace Node

/-- `Node::insertValue`, acting on the `values` vector of the node: returns the new vector
and the boolean result (`false` for a duplicate). -/
def insertValue (values : List Int) (value : Int) : List Int × Bool :=
  let it := lower_bound values value
  if values[it]? = some value then (values, false)
  else (values.take it ++ value :: values.drop it, true)

/-- `Node::removeValue`, acting on the `values` vector of the node: returns the new vector
and the boolean result (`false` when the value is not found). -/
def removeValue (values : List Int) (value : Int) : List Int × Bool :=
  let it := lower_bound values value
  if values[it]? = some value then (values.eraseIdx it, true)
  else (values, false)

end Node

namespace MTree

/-! ## Private member functions -/

/-- The successor search of the internal case of `remove` (source lines 65-67), started at
`successor = node->children[i + 1]`: follow `children.front()` while the node is not a leaf,
then read `values.front()`. `none` is a null dereference or `front()` of an empty vector. -/
def successorValue : NodePtr → Option Int
  | .null => none
  | .node values _ true => values.head?
  | .node _ .nil false => none
  | .node _ (.cons c _) false => successorValue c

mutual
/-- The private recursive `remove(Node*& node, const DT& value)`. The node reference and the
member `removedValues` are threaded through as a pair. -/
def removeNode : NodePtr → Int → Finset Int → Option (NodePtr × Finset Int)
  | .null, _, removed => some (.null, removed)
  | .node values children isLeaf, value, removed =>
    let it := lower_bound values value
    if values[it]? = some value then
      if isLeaf then
        some (.node (Node.removeValue values value).1 children isLeaf, Insert.insert value removed)
      else
        match children.get? (it + 1) with
        | none => none
        | some successor =>
          match successorValue successor with
          | none => none
          | some replacement =>
            match removeChild children (it + 1) replacement removed with
            | none => none
            | some (children', removed') =>
              some (.node (values.set it replacement) children' isLeaf, removed')
    else if !isLeaf then
      match removeChild children it value removed with
      | none => none
      | some (children', removed') => some (.node values children' isLeaf, removed')
    else
      some (.node values children isLeaf, removed)
/-- The recursive call `remove(node->children[i], value)`: runs `removeNode` on the `i`-th
child and stores the result back in the vector. -/
def removeChild : Children → Nat → Int → Finset Int → Option (Children × Finset Int)
  | .nil, _, _, _ => none
  | .cons c cs, 0, value, removed =>
    match removeNode c value removed with
    | none => none
    | some (c', removed') => some (.cons c' cs, removed')
  | .cons c cs, i + 1, value, removed =>
    match removeChild cs i value removed with
    | none => none
    | some (cs', removed') => some (.cons c cs', removed')
end

mutual
/-- The private `collectValues(const Node* node, vector<DT>& result)`; the result vector is
passed in and returned. -/
def collectValues : NodePtr → List Int → List Int
  | .null, result => result
  | .node values children isLeaf, result =>
    let result := collectLoop values children 0 result
    if isLeaf then result ++ values else result
/-- The `for` loop of `collectValues` from index `i` on, over the remaining children. -/
def collectLoop (values : List Int) : Children → Nat → List Int → List Int
  | .nil, _, result => result
  | .cons c cs, i, result =>
    let result := collectValues c result
    let result := match values[i]? with
      | some v => result ++ [v]
      | none => result
    collectLoop values cs (i + 1) result
end

/-! ## Public member functions -/

/-- The constructor `MTree(const int m)`: throws `runtime_error("Invalid M value")` when
`m < 2`, otherwise yields the object with `root = nullptr` and an empty `removedValues`. -/
def new (m : Int) : Except String MTree :=
  if m < 2 then .error "Invalid M value"
  else .ok { root := .null, M := m, removedValues := ∅ }

mutual
/-- The descent loop of `insert` (`while (!current->isLeaf) ...`) followed by
`current->insertValue(value)`, returning the updated subtree. -/
def insertInto : NodePtr → Int → Option NodePtr
  | .null, _ => none
  | .node values children isLeaf, value =>
    if isLeaf then
      some (.node (Node.insertValue values value).1 children isLeaf)
    else
      match insertChild children (upper_bound values value) value with
      | none => none
      | some children' => some (.node values children' isLeaf)
/-- The step `current = current->children[childIndex]` of the descent loop of `insert`. -/
def insertChild : Children → Nat → Int → Option Children
  | .nil, _, _ => none
  | .cons c cs, 0, value =>
    match insertInto c value with
    | none => none
    | some c' => some (.cons c' cs)
  | .cons c cs, i + 1, value =>
    match insertChild cs i value with
    | none => none
    | some cs' => some (.cons c cs')
end

/-- The public `insert(const DT value)`. -/
def insert (t : MTree) (value : Int) : Option MTree :=
  if value ∈ t.removedValues then
    let root := match t.root with
      | .null => NodePtr.node [] .nil true
      | r => r
    match insertInto root value with
    | none => none
    | some root' => some { t with root := root', removedValues := t.removedValues.erase value }
  else
    match t.root with
    | .null => some { t with root := .node [value] .nil true }
    | r =>
      match insertInto r value with
      | none => none
      | some root' => some { t with root := root' }

mutual
/-- The loop of `contains`, started at `current`. -/
def containsFrom : NodePtr → Int → Option Bool
  | .null, _ => some false
  | .node values children isLeaf, value =>
    let it := lower_bound values value
    if values[it]? = some value then some true
    else if isLeaf then some false
    else containsChild children it value
/-- The step `current = current->children[childIndex]` of the loop of `contains`. -/
def containsChild : Children → Nat → Int → Option Bool
  | .nil, _, _ => none
  | .cons c _, 0, value => containsFrom c value
  | .cons _ cs, i + 1, value => containsChild cs i value
end

/-- The public `contains(const DT value)`. -/
def contains (t : MTree) (value : Int) : Option Bool :=
  containsFrom t.root value

/-- The public `getAllValues()`. -/
def getAllValues (t : MTree) : List Int :=
  collectValues t.root []

/-- The public `rebuildTree()`. -/
def rebuildTree (t : MTree) : Option MTree :=
  let allValues := getAllValues t
  allValues.foldlM insert { t with root := .null }

/-- The public `remove(const DT value)`. -/
def remove (t : MTree) (value : Int) : Option MTree :=
  match removeNode t.root value t.removedValues with
  | none => none
  | some (root', removed') => rebuildTree { t with root := root', removedValues := removed' }

end MTree

/-! ## Sequences of public calls -/

/-- One call of the public interface that can change the index. -/
inductive Op where
  | Insert (k : Int)
  | Remove (k : Int)
  | Rebuild
  deriving DecidableEq

namespace MTree

/-- Executes one public call. -/
def step (t : MTree) : Op → Option MTree
  | .Insert k => insert t k
  | .Remove k => remove t k
  | .Rebuild => rebuildTree t

/-- Executes a finite sequence of public calls, from left to right. -/
def run (t : MTree) (ops : List Op) : Option MTree :=
  ops.foldlM step t

/-! ## The data-model invariants of the specification (section 3) -/

/-- The key `x` lies above the optional lower limit. -/
def above : Option Int → Int → Bool
  | none, _ => true
  | some lo, x => decide (lo < x)

mutual
/-- Well-formed node: the keys of every node are strictly increasing; a leaf has no children;
an internal node has exactly `len(keys) + 1` present children, and every key stored under
`children[i]` is less than `keys[i]` and greater than `keys[i - 1]`. -/
def wf : NodePtr → Bool
  | .null => false
  | .node values children isLeaf =>
    decide (values.Pairwise (· < ·)) &&
      (if isLeaf then (match children with | .nil => true | .cons _ _ => false)
       else wfChildren none values children)
/-- The children of an internal node against the remaining separator keys; `lo` is the
separator to the left of the first remaining child. -/
def wfChildren : Option Int → List Int → Children → Bool
  | _, _, .nil => false
  | lo, [], .cons c cs =>
    (match cs with | .nil => true | .cons _ _ => false) &&
      wf c && (collectValues c []).all (fun x => above lo x)
  | lo, v :: vs, .cons c cs =>
    wf c && (collectValues c []).all (fun x => above lo x && decide (x < v)) &&
      wfChildren (some v) vs cs
end

mutual
/-- Every leaf below the pointer holds at least one key. -/
def leavesNonEmpty : NodePtr → Bool
  | .null => true
  | .node values children isLeaf =>
    (if isLeaf then !values.isEmpty else true) && leavesNonEmptyAll children
/-- Every leaf below any of the children holds at least one key. -/
def leavesNonEmptyAll : Children → Bool
  | .nil => true
  | .cons c cs => leavesNonEmpty c && leavesNonEmptyAll cs
end

/-- The tree of the index satisfies the data-model invariants: the root is absent or a
well-formed node. -/
def WellFormed (t : MTree) : Prop :=
  t.root = .null ∨ wf t.root = true

/-- No live key is in the tombstone set. -/
def NoLiveTombstone (t : MTree) : Prop :=
  ∀ x ∈ getAllValues t, x ∉ t.removedValues

instance (t : MTree) : Decidable (WellFormed t) := by
  unfold WellFormed
  cases t.root
  · exact isTrue (Or.inl rfl)
  · exact decidable_of_iff _ ⟨Or.inr, fun h => h.resolve_left (by simp)⟩

instance (t : MTree) : Decidable (NoLiveTombstone t) := by
  unfold NoLiveTombstone; infer_instance

end MTree

/-! ## Proof-side definitions -/

namespace MTree

/-- The keys below a pointer, in enumeration order. -/
def keys (p : NodePtr) : List Int := collectValues p []

/-- In-order interleaving of the children's keys with the separator keys: child, key, child,
key, ..., last child. -/
def interleave : Children → List Int → List Int
  | .nil, _ => []
  | .cons c cs, vs =>
    keys c ++ (match vs with
      | [] => interleave cs []
      | v :: vs' => v :: interleave cs vs')

/-- The root holding the keys `l` in a single leaf; absent when `l` is empty. -/
def rootOf : List Int → NodePtr
  | [] => .null
  | v :: vs => .node (v :: vs) .nil true

/-- The key vector after `Node::insertValue`. -/
def ins (l : List Int) (v : Int) : List Int := (Node.insertValue l v).1

/-- The key vector after `Node::removeValue`. -/
def rem (l : List Int) (v : Int) : List Int := (Node.removeValue l v).1

/-- The branches of `removeNode` for an internal node (`isLeaf = false`), returning the new
`values`, the new `children` and the new tombstone set. -/
def removeInternal (values : List Int) (children : Children) (value : Int)
    (removed : Finset Int) : Option (List Int × Children × Finset Int) :=
  let it := lower_bound values value
  if values[it]? = some value then
    match children.get? (it + 1) with
    | none => none
    | some successor =>
      match successorValue successor with
      | none => none
      | some replacement =>
        match removeChild children (it + 1) replacement removed with
        | none => none
        | some (children', removed') => some (values.set it replacement, children', removed')
  else
    match removeChild children it value removed with
    | none => none
    | some (children', removed') => some (values, children', removed')

/-- The key sequence after one public call on an index whose keys are `l`. -/
def absKeys (l : List Int) : Op → List Int
  | .Insert k => ins l k
  | .Remove k => l.erase k
  | .Rebuild => l

/-- The tombstone set after one public call on an index with keys `l` and tombstones `T`. -/
def absTomb (l : List Int) (T : Finset Int) : Op → Finset Int
  | .Insert k => T.erase k
  | .Remove k => if k ∈ l then Insert.insert k T else T
  | .Rebuild => T

/-- Flat state: the root is absent or a single non-empty leaf with strictly increasing keys,
none of which is a tombstone. -/
def Flat (t : MTree) : Prop :=
  ∃ l : List Int, t.root = rootOf l ∧ l.Pairwise (· < ·) ∧ ∀ x ∈ l, x ∉ t.removedValues

/-- The test `it != values.end() && *it == value` after `lower_bound`. -/
def found (l : List Int) (v : Int) : Prop := l[lower_bound l v]? = some v

instance (l : List Int) (v : Int) : Decidable (found l v) := by
  unfold found; infer_instance

end MTree


/-! ## The final listing of the driver -/

/-- The loop at the end of `main` (source lines 234-237) from index `i` on, over the keys not
yet printed; `size` is `finalValues.size()`. Returns the text written to `cout`. -/
def finalListFrom (size : Nat) : Nat → List Int → String
  | _, [] => ""
  | i, v :: vs =>
    toString v ++ (if (i + 1) % 20 = 0 ∨ i = size - 1 then "\n" else " ") ++
      finalListFrom size (i + 1) vs

/-- The text that `main` writes after `"Final list: "`. -/
def finalList (finalValues : List Int) : String :=
  finalListFrom finalValues.length 0 finalValues

/-! ## The mathematical set that the index represents -/

/-- One call replayed on a set of keys: `Insert k` adds `k`, `Remove k` deletes `k`, `Rebuild`
does nothing. -/
def setStep (s : Finset Int) : Op → Finset Int
  | .Insert k => Insert.insert k s
  | .Remove k => s.erase k
  | .Rebuild => s

/-- A sequence of calls replayed on the initially empty set. -/
def setRun (ops : List Op) : Finset Int :=
  ops.foldl setStep ∅

namespace MTree

/-! ## Observations on trees used by the behavioural claims -/

mutual
/-- Every key stored in any node below the pointer (node by node, parents first). -/
def storedKeys : NodePtr → List Int
  | .null => []
  | .node values children _ => values ++ storedKeysAll children
/-- Every key stored in any node below any of the children. -/
def storedKeysAll : Children → List Int
  | .nil => []
  | .cons c cs => storedKeys c ++ storedKeysAll cs
end

mutual
/-- The tree with the key vector of every leaf emptied: what remains is the number of nodes,
the `isLeaf` flag and child list of every node, and the keys of every internal node. -/
def skeleton : NodePtr → NodePtr
  | .null => .null
  | .node values children isLeaf =>
    .node (if isLeaf then [] else values) (skeletonAll children) isLeaf
/-- The skeletons of the children. -/
def skeletonAll : Children → Children
  | .nil => .nil
  | .cons c cs => .cons (skeleton c) (skeletonAll cs)
end

mutual
/-- The key vectors of the leaves below the pointer, from left to right. -/
def leafVectors : NodePtr → List (List Int)
  | .null => []
  | .node values children isLeaf =>
    (if isLeaf then [values] else []) ++ leafVectorsAll children
/-- The key vectors of the leaves below the children, from left to right. -/
def leafVectorsAll : Children → List (List Int)
  | .nil => []
  | .cons c cs => leafVectors c ++ leafVectorsAll cs
end

mutual
/-- The key `k` is a separator: some internal node below the pointer holds it. -/
def isSeparator : NodePtr → Int → Bool
  | .null, _ => false
  | .node values children isLeaf, k =>
    (!isLeaf && decide (k ∈ values)) || isSeparatorAll children k
/-- The key `k` is a separator below one of the children. -/
def isSeparatorAll : Children → Int → Bool
  | .nil, _ => false
  | .cons c cs, k => isSeparator c k || isSeparatorAll cs k
end

mutual
/-- The in-order successor of the separator `k` as the specification words it: in the internal
node that holds `k`, the first key of the leftmost leaf of the child immediately to the right
of `k`. `none` when `k` is not a separator. -/
def successorOf : NodePtr → Int → Option Int
  | .null, _ => none
  | .node values children isLeaf, k =>
    if !isLeaf && decide (k ∈ values) then
      match children.get? (values.indexOf k + 1) with
      | none => none
      | some c => successorValue c
    else successorOfAll children k
/-- The in-order successor of the separator `k` below the first child that has it. -/
def successorOfAll : Children → Int → Option Int
  | .nil, _ => none
  | .cons c cs, k =>
    match successorOf c k with
    | some r => some r
    | none => successorOfAll cs k
end


/-- The outcome of the recursive removal of a separator `k` from the subtree `p` with
tombstone set `T`: the successor search yields `r`, the removal returns the subtree `p'` and
records `r`, the new subtree is well formed, `r` directly follows `k` in the old enumeration
and takes its place in the new one, and `r` is a separator of the new subtree. -/
def Promoted (p : NodePtr) (k : Int) (T : Finset Int) (r : Int) (p' : NodePtr) : Prop :=
  successorOf p k = some r ∧
  removeNode p k T = some (p', Insert.insert r T) ∧
  wf p' = true ∧ k < r ∧
  (∃ pre post, keys p = pre ++ k :: r :: post ∧ keys p' = pre ++ r :: post) ∧
  isSeparator p' r = true

end MTree
/-! ## Structural induction over trees -/

theorem NodePtr.node_induct {P : NodePtr → Prop} (hnull : P .null)
    (hnode : ∀ values children isLeaf, (∀ c ∈ children.toList, P c) →
      P (.node values children isLeaf)) : ∀ p, P p := by
  intro p
  refine @NodePtr.rec P (fun cs => ∀ c ∈ cs.toList, P c) hnull hnode ?_ ?_ p
  · intro c hc
    simp [Children.toList] at hc
  · intro q qs ih1 ih2 c hc
    simp only [Children.toList, List.mem_cons] at hc
    rcases hc with rfl | hc
    · exact ih1
    · exact ih2 c hc

theorem Children.children_induct {Q : Children → Prop} (hnil : Q .nil)
    (hcons : ∀ c cs, Q cs → Q (.cons c cs)) : ∀ cs, Q cs := by
  intro cs
  exact @Children.rec (fun _ => True) Q trivial (fun _ _ _ _ => trivial) hnil
    (fun c cs _ ih => hcons c cs ih) cs

namespace MTree

/-! ## Enumeration -/

theorem collect_append_both :
    (∀ (p : NodePtr) (acc : List Int), collectValues p acc = acc ++ keys p) ∧
    (∀ (cs : Children) (vals : List Int) (i : Nat) (acc : List Int),
      collectLoop vals cs i acc = acc ++ collectLoop vals cs i []) := by
  have key : ∀ p : NodePtr, ∀ acc : List Int, collectValues p acc = acc ++ keys p := by
    intro p
    refine @NodePtr.rec (fun p => ∀ acc : List Int, collectValues p acc = acc ++ keys p)
      (fun cs => ∀ (vals : List Int) (i : Nat) (acc : List Int),
        collectLoop vals cs i acc = acc ++ collectLoop vals cs i []) ?_ ?_ ?_ ?_ p
    · intro acc; simp [collectValues, keys]
    · intro values children isLeaf ih acc
      simp only [collectValues, keys]
      rw [ih]
      split <;> simp
    · intro vals i acc; simp [collectLoop]
    · intro q qs ih1 ih2 vals i acc
      simp only [collectLoop]
      rw [ih2, ih1]
      conv => rhs; rw [ih2]
      cases vals[i]? <;> simp [keys]
  refine ⟨key, ?_⟩
  intro cs
  induction cs using Children.children_induct with
  | hnil => intro vals i acc; simp [collectLoop]
  | hcons c cs ih =>
    intro vals i acc
    simp only [collectLoop]
    rw [ih, key c acc]
    conv => rhs; rw [ih]
    cases vals[i]? <;> simp [keys]

theorem collect_append (p : NodePtr) (acc : List Int) :
    collectValues p acc = acc ++ keys p :=
  collect_append_both.1 p acc

theorem collectLoop_append (vals : List Int) (cs : Children) (i : Nat) (acc : List Int) :
    collectLoop vals cs i acc = acc ++ collectLoop vals cs i [] :=
  collect_append_both.2 cs vals i acc

theorem collectLoop_eq (vals : List Int) : ∀ (cs : Children) (i : Nat),
    collectLoop vals cs i [] = interleave cs (vals.drop i) := by
  intro cs
  induction cs using Children.children_induct with
  | hnil => intro i; simp [collectLoop, interleave]
  | hcons c cs ih =>
    intro i
    simp only [collectLoop, interleave]
    cases h : vals[i]? with
    | none =>
      have hd : vals.drop i = [] := by
        rw [List.drop_eq_nil_iff]
        exact List.getElem?_eq_none_iff.mp h
      have hd1 : vals.drop (i + 1) = [] := by
        rw [List.drop_eq_nil_iff]
        have := List.getElem?_eq_none_iff.mp h
        omega
      simp only [hd, List.nil_append]
      rw [collectLoop_append, ih, hd1]; rfl
    | some v =>
      have hlt : i < vals.length := by
        by_contra hcon
        rw [List.getElem?_eq_none_iff.mpr (by omega)] at h
        cases h
      have hv : vals[i] = v := by
        rw [List.getElem?_eq_getElem hlt] at h
        exact Option.some.inj h
      have hd : vals.drop i = v :: vals.drop (i + 1) := by
        rw [← hv]; exact List.drop_eq_getElem_cons hlt
      simp only [hd, List.nil_append]
      rw [collectLoop_append, ih]
      simp [keys]

theorem keys_null : keys .null = [] := by simp [keys, collectValues]

theorem keys_leaf (vals : List Int) : keys (.node vals .nil true) = vals := by
  simp [keys, collectValues, collectLoop]

theorem keys_internal (vals : List Int) (cs : Children) :
    keys (.node vals cs false) = interleave cs vals := by
  simp [keys, collectValues, collectLoop_eq]

theorem keys_rootOf (l : List Int) : keys (rootOf l) = l := by
  cases l with
  | nil => exact keys_null
  | cons v vs => exact keys_leaf _


/-! ## Binary search in a key vector -/

theorem found_nil (v : Int) : ¬ found [] v := by simp [found, lower_bound]

theorem found_cons (x : Int) (xs : List Int) (v : Int) :
    found (x :: xs) v ↔ if x < v then found xs v else x = v := by
  unfold found
  by_cases h : x < v <;> simp [lower_bound, h]

theorem found_mem {l : List Int} {v : Int} (h : found l v) : v ∈ l :=
  List.mem_iff_getElem?.mpr ⟨_, h⟩

theorem found_iff_mem {l : List Int} (hs : l.Pairwise (· < ·)) (v : Int) :
    found l v ↔ v ∈ l := by
  refine ⟨found_mem, ?_⟩
  induction l with
  | nil => simp
  | cons x xs ih =>
    intro hv
    rw [List.pairwise_cons] at hs
    rw [found_cons]
    rcases List.mem_cons.mp hv with rfl | hv
    · simp
    · have hx := hs.1 v hv
      simp [hx, ih hs.2 hv]

theorem ins_nil (v : Int) : ins [] v = [v] := by
  simp [ins, Node.insertValue, lower_bound]

theorem ins_cons (x : Int) (xs : List Int) (v : Int) :
    ins (x :: xs) v =
      if x < v then x :: ins xs v else if x = v then x :: xs else v :: x :: xs := by
  by_cases h : x < v
  · simp only [ins, Node.insertValue, lower_bound, h, if_true, List.getElem?_cons_succ,
      List.take_succ_cons, List.drop_succ_cons]
    split <;> simp
  · by_cases h2 : x = v <;> simp [ins, Node.insertValue, lower_bound, h, h2]

theorem rem_nil (v : Int) : rem [] v = [] := by
  simp [rem, Node.removeValue, lower_bound]

theorem rem_cons (x : Int) (xs : List Int) (v : Int) :
    rem (x :: xs) v = if x < v then x :: rem xs v else if x = v then xs else x :: xs := by
  by_cases h : x < v
  · simp only [rem, Node.removeValue, lower_bound, h, if_true, List.getElem?_cons_succ,
      List.eraseIdx_cons_succ]
    split <;> simp
  · by_cases h2 : x = v <;> simp [rem, Node.removeValue, lower_bound, h, h2]

theorem ins_ne_nil (l : List Int) (v : Int) : ins l v ≠ [] := by
  cases l with
  | nil => simp [ins_nil]
  | cons x xs => rw [ins_cons]; split_ifs <;> simp

theorem mem_ins (l : List Int) (v x : Int) : x ∈ ins l v ↔ x = v ∨ x ∈ l := by
  induction l with
  | nil => simp [ins_nil]
  | cons y ys ih =>
    rw [ins_cons]
    split_ifs with h1 h2
    · simp only [List.mem_cons, ih]; tauto
    · subst h2; simp
    · simp

theorem ins_of_mem {l : List Int} (hs : l.Pairwise (· < ·)) {v : Int} (hv : v ∈ l) :
    ins l v = l := by
  induction l with
  | nil => simp at hv
  | cons x xs ih =>
    rw [List.pairwise_cons] at hs
    rw [ins_cons]
    rcases List.mem_cons.mp hv with rfl | hv
    · simp
    · simp [hs.1 v hv, ih hs.2 hv]

theorem ins_append_of_lt {l : List Int} {v : Int} (h : ∀ x ∈ l, x < v) :
    ins l v = l ++ [v] := by
  induction l with
  | nil => simp [ins_nil]
  | cons x xs ih =>
    rw [ins_cons]
    have hx : x < v := h x (List.mem_cons_self _ _)
    simp [hx, ih (fun y hy => h y (List.mem_cons_of_mem _ hy))]

theorem ins_pairwise {l : List Int} (hs : l.Pairwise (· < ·)) (v : Int) :
    (ins l v).Pairwise (· < ·) := by
  induction l with
  | nil => simp [ins_nil]
  | cons x xs ih =>
    rw [ins_cons]
    have hs' := List.pairwise_cons.mp hs
    split_ifs with h1 h2
    · rw [List.pairwise_cons]
      refine ⟨?_, ih hs'.2⟩
      intro y hy
      rcases (mem_ins xs v y).mp hy with rfl | hy
      · exact h1
      · exact hs'.1 y hy
    · exact hs
    · rw [List.pairwise_cons]
      refine ⟨?_, hs⟩
      intro y hy
      have hvx : v < x := lt_of_le_of_ne (not_lt.mp h1) (Ne.symm h2)
      rcases List.mem_cons.mp hy with rfl | hy
      · exact hvx
      · exact lt_trans hvx (hs'.1 y hy)

theorem rem_eq_erase {l : List Int} (hs : l.Pairwise (· < ·)) (v : Int) :
    rem l v = l.erase v := by
  induction l with
  | nil => simp [rem_nil]
  | cons x xs ih =>
    rw [List.pairwise_cons] at hs
    rw [rem_cons]
    split_ifs with h1 h2
    · rw [List.erase_cons_tail (by simpa using ne_of_lt h1), ih hs.2]
    · subst h2; simp
    · have hnot : v ∉ xs := by
        intro hv
        have := hs.1 v hv
        omega
      rw [List.erase_cons_tail (by simpa using h2), List.erase_of_not_mem hnot]

theorem foldl_ins_sorted : ∀ (l pre : List Int), (pre ++ l).Pairwise (· < ·) →
    l.foldl ins pre = pre ++ l := by
  intro l
  induction l with
  | nil => intro pre _; simp
  | cons x xs ih =>
    intro pre hs
    have hlt : ∀ y ∈ pre, y < x := by
      intro y hy
      exact (List.pairwise_append.mp hs).2.2 y hy x (List.mem_cons_self _ _)
    rw [List.foldl_cons, ins_append_of_lt hlt, ih]
    · simp
    · simpa using hs

theorem mem_foldl_erase (l : List Int) : ∀ (T : Finset Int) (y : Int),
    y ∈ l.foldl Finset.erase T ↔ y ∈ T ∧ y ∉ l := by
  induction l with
  | nil => simp
  | cons x xs ih =>
    intro T y
    rw [List.foldl_cons, ih]
    simp only [Finset.mem_erase, List.mem_cons, not_or]
    tauto

theorem foldl_erase_disjoint {l : List Int} {T : Finset Int} (h : ∀ x ∈ l, x ∉ T) :
    l.foldl Finset.erase T = T := by
  ext y
  rw [mem_foldl_erase]
  constructor
  · exact fun hy => hy.1
  · exact fun hy => ⟨hy, fun hl => h y hl hy⟩

/-! ## The operations on a single-leaf tree -/

theorem insert_rootOf (l : List Int) (m : Int) (T : Finset Int) (v : Int) :
    insert ⟨rootOf l, m, T⟩ v = some ⟨rootOf (ins l v), m, T.erase v⟩ := by
  have hroot : ∀ l', l' ≠ [] → NodePtr.node l' .nil true = rootOf l' := by
    intro l' hl'
    cases l' with
    | nil => exact absurd rfl hl'
    | cons _ _ => rfl
  rw [← hroot _ (ins_ne_nil l v)]
  by_cases hv : v ∈ T
  · cases l <;> simp [insert, hv, rootOf, insertInto, ins]
  · rw [Finset.erase_eq_of_not_mem hv]
    cases l with
    | nil => simp [insert, hv, rootOf, ins_nil]
    | cons x xs => simp [insert, hv, rootOf, insertInto, ins]

theorem foldlM_insert_rootOf (m : Int) : ∀ (l acc : List Int) (T : Finset Int),
    l.foldlM insert (⟨rootOf acc, m, T⟩ : MTree) =
      some ⟨rootOf (l.foldl ins acc), m, l.foldl Finset.erase T⟩ := by
  intro l
  induction l with
  | nil => intro acc T; rfl
  | cons x xs ih =>
    intro acc T
    rw [List.foldlM_cons, insert_rootOf]
    simp only [Option.bind_eq_bind, Option.some_bind, List.foldl_cons]
    exact ih _ _

theorem rebuildTree_eq (t : MTree) :
    rebuildTree t = some ⟨rootOf ((keys t.root).foldl ins []), t.M,
      (keys t.root).foldl Finset.erase t.removedValues⟩ := by
  unfold rebuildTree getAllValues
  exact foldlM_insert_rootOf t.M (keys t.root) [] t.removedValues

theorem rebuildTree_sorted (t : MTree) (hs : (keys t.root).Pairwise (· < ·))
    (hd : ∀ x ∈ keys t.root, x ∉ t.removedValues) :
    rebuildTree t = some ⟨rootOf (keys t.root), t.M, t.removedValues⟩ := by
  rw [rebuildTree_eq, foldl_ins_sorted _ [] (by simpa using hs), foldl_erase_disjoint hd]
  simp


/-! ## Sorted key vectors -/

theorem sorted_ext {l₁ l₂ : List Int} (h₁ : l₁.Pairwise (· < ·)) (h₂ : l₂.Pairwise (· < ·))
    (h : ∀ x, x ∈ l₁ ↔ x ∈ l₂) : l₁ = l₂ := by
  have n₁ : l₁.Nodup := h₁.imp (fun hab => ne_of_lt hab)
  have n₂ : l₂.Nodup := h₂.imp (fun hab => ne_of_lt hab)
  exact List.eq_of_perm_of_sorted ((List.perm_ext_iff_of_nodup n₁ n₂).mpr h) h₁ h₂

theorem sorted_nodup {l : List Int} (h : l.Pairwise (· < ·)) : l.Nodup :=
  h.imp (fun hab => ne_of_lt hab)

theorem erase_pairwise {l : List Int} (h : l.Pairwise (· < ·)) (k : Int) :
    (l.erase k).Pairwise (· < ·) :=
  h.sublist (List.erase_sublist k l)

theorem mem_erase_sorted {l : List Int} (h : l.Pairwise (· < ·)) (k x : Int) :
    x ∈ l.erase k ↔ x ≠ k ∧ x ∈ l :=
  (sorted_nodup h).mem_erase_iff

/-! ## The public calls on a flat state -/

theorem removeNode_rootOf (l : List Int) (k : Int) (T : Finset Int) :
    removeNode (rootOf l) k T =
      some (if found l k then (NodePtr.node (rem l k) .nil true, Insert.insert k T)
        else (rootOf l, T)) := by
  cases l with
  | nil => simp [rootOf, removeNode, found_nil]
  | cons x xs =>
    by_cases h : found (x :: xs) k
    · have h' := h
      unfold found at h'
      simp [rootOf, removeNode, h, h', rem]
    · have h' := h
      unfold found at h'
      simp [rootOf, removeNode, h, h']

theorem remove_rootOf {l : List Int} (hs : l.Pairwise (· < ·)) (m : Int) {T : Finset Int}
    (hd : ∀ x ∈ l, x ∉ T) (k : Int) :
    remove ⟨rootOf l, m, T⟩ k =
      some ⟨rootOf (l.erase k), m, if k ∈ l then Insert.insert k T else T⟩ := by
  unfold remove
  simp only [removeNode_rootOf]
  by_cases hk : k ∈ l
  · have hf : found l k := (found_iff_mem hs k).mpr hk
    simp only [hf, hk, if_true]
    rw [rebuildTree_sorted]
    · simp [keys_leaf, rem_eq_erase hs]
    · simpa [keys_leaf, rem_eq_erase hs] using erase_pairwise hs k
    · intro x hx
      simp only [keys_leaf, rem_eq_erase hs] at hx
      have hx' := (mem_erase_sorted hs k x).mp hx
      simp only [Finset.mem_insert, not_or]
      exact ⟨hx'.1, hd x hx'.2⟩
  · have hf : ¬ found l k := fun hf => hk (found_mem hf)
    simp only [hf, hk, if_false]
    rw [rebuildTree_sorted]
    · simp [keys_rootOf, List.erase_of_not_mem hk]
    · simpa [keys_rootOf] using hs
    · simpa [keys_rootOf] using hd

theorem step_rootOf {l : List Int} (hs : l.Pairwise (· < ·)) (m : Int) {T : Finset Int}
    (hd : ∀ x ∈ l, x ∉ T) (op : Op) :
    step ⟨rootOf l, m, T⟩ op = some ⟨rootOf (absKeys l op), m, absTomb l T op⟩ := by
  cases op with
  | Insert k => exact insert_rootOf l m T k
  | Remove k => exact remove_rootOf hs m hd k
  | Rebuild =>
    simp only [step, absKeys, absTomb]
    rw [rebuildTree_sorted]
    · simp [keys_rootOf]
    · simpa [keys_rootOf] using hs
    · simpa [keys_rootOf] using hd

theorem absKeys_pairwise {l : List Int} (hs : l.Pairwise (· < ·)) (op : Op) :
    (absKeys l op).Pairwise (· < ·) := by
  cases op with
  | Insert k => exact ins_pairwise hs k
  | Remove k => exact erase_pairwise hs k
  | Rebuild => exact hs

theorem abs_disjoint {l : List Int} (hs : l.Pairwise (· < ·)) {T : Finset Int}
    (hd : ∀ x ∈ l, x ∉ T) (op : Op) : ∀ x ∈ absKeys l op, x ∉ absTomb l T op := by
  cases op with
  | Insert k =>
    intro x hx
    simp only [absKeys, mem_ins] at hx
    simp only [absTomb, Finset.mem_erase, not_and]
    intro hne
    exact hd x (hx.resolve_left hne)
  | Remove k =>
    intro x hx
    simp only [absKeys] at hx
    have hx' := (mem_erase_sorted hs k x).mp hx
    simp only [absTomb]
    split_ifs
    · simp only [Finset.mem_insert, not_or]
      exact ⟨hx'.1, hd x hx'.2⟩
    · exact hd x hx'.2
  | Rebuild => exact hd

theorem step_flat {t : MTree} (hf : Flat t) (op : Op) :
    ∃ t', step t op = some t' ∧ Flat t' ∧ t'.M = t.M := by
  obtain ⟨l, hroot, hs, hd⟩ := hf
  obtain ⟨root, m, T⟩ := t
  simp only at hroot hd
  subst hroot
  exact ⟨_, step_rootOf hs m hd op, ⟨_, rfl, absKeys_pairwise hs op, abs_disjoint hs hd op⟩, rfl⟩

theorem run_nil (t : MTree) : run t [] = some t := rfl

theorem run_cons (t : MTree) (op : Op) (ops : List Op) :
    run t (op :: ops) = (step t op).bind (fun t' => run t' ops) := by
  simp [run, List.foldlM_cons]

theorem run_flat (ops : List Op) : ∀ {t : MTree}, Flat t →
    ∃ t', run t ops = some t' ∧ Flat t' := by
  induction ops with
  | nil => intro t hf; exact ⟨t, rfl, hf⟩
  | cons op ops ih =>
    intro t hf
    obtain ⟨t1, h1, hf1, _⟩ := step_flat hf op
    obtain ⟨t2, h2, hf2⟩ := ih hf1
    exact ⟨t2, by rw [run_cons, h1]; exact h2, hf2⟩

theorem new_ok {m : Int} (hm : 2 ≤ m) : new m = .ok ⟨.null, m, ∅⟩ := by
  have : ¬ m < 2 := by omega
  simp [new, this]

theorem flat_fresh (m : Int) : Flat ⟨.null, m, ∅⟩ :=
  ⟨[], rfl, List.Pairwise.nil, by simp⟩

theorem getAllValues_flat {t : MTree} (hf : Flat t) :
    (getAllValues t).Pairwise (· < ·) ∧ ∀ x ∈ getAllValues t, x ∉ t.removedValues := by
  obtain ⟨l, hroot, hs, hd⟩ := hf
  have : getAllValues t = l := by
    unfold getAllValues
    rw [hroot]
    exact keys_rootOf l
  rw [this]
  exact ⟨hs, hd⟩


theorem step_tomb {t t' : MTree} (hf : Flat t) (op : Op) (h : step t op = some t') (k : Int) :
    k ∈ t'.removedValues ↔
      (op = Op.Remove k ∧ k ∈ getAllValues t) ∨ (k ∈ t.removedValues ∧ op ≠ Op.Insert k) := by
  obtain ⟨l, hroot, hs, hd⟩ := hf
  obtain ⟨root, m, T⟩ := t
  simp only at hroot hd
  subst hroot
  rw [step_rootOf hs m hd op] at h
  have ht' : t'.removedValues = absTomb l T op := by
    rw [← Option.some.inj h]
  have hkeys : getAllValues ⟨rootOf l, m, T⟩ = l := keys_rootOf l
  rw [ht', hkeys]
  cases op with
  | Insert k' =>
    simp only [absTomb, Finset.mem_erase]
    constructor
    · rintro ⟨h1, h2⟩
      exact Or.inr ⟨h2, fun h3 => h1 (Op.Insert.inj h3).symm⟩
    · rintro (⟨h1, _⟩ | ⟨h1, h2⟩)
      · cases h1
      · exact ⟨fun h3 => h2 (by rw [h3]), h1⟩
  | Remove k' =>
    simp only [absTomb]
    by_cases hk' : k' ∈ l
    · simp only [hk', if_true, Finset.mem_insert]
      constructor
      · rintro (h1 | h1)
        · subst h1; exact Or.inl ⟨rfl, hk'⟩
        · exact Or.inr ⟨h1, by simp⟩
      · rintro (⟨h1, _⟩ | ⟨h1, _⟩)
        · exact Or.inl (Op.Remove.inj h1).symm
        · exact Or.inr h1
    · simp only [hk', if_false]
      constructor
      · exact fun h1 => Or.inr ⟨h1, by simp⟩
      · rintro (⟨h1, h2⟩ | ⟨h1, _⟩)
        · cases h1; exact absurd h2 hk'
        · exact h1
  | Rebuild => simp [absTomb]

/-- The trace characterisation of the tombstone set, from any flat start state. -/
theorem run_tomb (ops : List Op) : ∀ {t tf : MTree}, Flat t → run t ops = some tf →
    ∀ k : Int, k ∈ tf.removedValues ↔
      (∃ i : Nat, ops[i]? = some (Op.Remove k) ∧
        (∃ ti, run t (ops.take i) = some ti ∧ k ∈ getAllValues ti) ∧
        ∀ j : Nat, i < j → ops[j]? ≠ some (Op.Insert k)) ∨
      (k ∈ t.removedValues ∧ ∀ j : Nat, ops[j]? ≠ some (Op.Insert k)) := by
  induction ops with
  | nil =>
    intro t tf _ h k
    have : tf = t := (Option.some.inj h).symm
    subst this
    simp
  | cons op ops ih =>
    intro t tf hf h k
    obtain ⟨t1, h1, hf1, _⟩ := step_flat hf op
    rw [run_cons, h1] at h
    have hrun1 : ∀ l, run t (op :: l) = run t1 l := by
      intro l; rw [run_cons, h1]; rfl
    rw [ih hf1 h k, step_tomb hf op h1 k]
    constructor
    · rintro (⟨i, hi, ⟨ti, hti, hlive⟩, hno⟩ | ⟨hk | hk, hno⟩)
      · refine Or.inl ⟨i + 1, by simpa using hi, ⟨ti, ?_, hlive⟩, ?_⟩
        · rw [List.take_succ_cons, hrun1]; exact hti
        · intro j hj
          obtain ⟨j', rfl⟩ : ∃ j', j = j' + 1 := ⟨j - 1, by omega⟩
          simpa using hno j' (by omega)
      · refine Or.inl ⟨0, by simp [hk.1], ⟨t, rfl, hk.2⟩, ?_⟩
        intro j hj
        obtain ⟨j', rfl⟩ : ∃ j', j = j' + 1 := ⟨j - 1, by omega⟩
        simpa using hno j'
      · refine Or.inr ⟨hk.1, ?_⟩
        intro j
        cases j with
        | zero => simpa using hk.2
        | succ j' => simpa using hno j'
    · rintro (⟨i, hi, ⟨ti, hti, hlive⟩, hno⟩ | ⟨hk, hno⟩)
      · cases i with
        | zero =>
          simp only [List.getElem?_cons_zero, Option.some.injEq] at hi
          simp only [List.take_zero] at hti
          have : ti = t := (Option.some.inj hti).symm
          subst this
          refine Or.inr ⟨Or.inl ⟨hi, hlive⟩, ?_⟩
          intro j
          simpa using hno (j + 1) (by omega)
        | succ i' =>
          refine Or.inl ⟨i', by simpa using hi, ⟨ti, ?_, hlive⟩, ?_⟩
          · rw [List.take_succ_cons, hrun1] at hti; exact hti
          · intro j hj
            simpa using hno (j + 1) (by omega)
      · refine Or.inr ⟨Or.inr ⟨hk, ?_⟩, ?_⟩
        · simpa using hno 0
        · intro j
          simpa using hno (j + 1)

theorem contains_rootOf (l : List Int) (m : Int) (T : Finset Int) (k : Int) :
    contains ⟨rootOf l, m, T⟩ k = some (decide (found l k)) := by
  cases l with
  | nil => simp [contains, rootOf, containsFrom, found_nil]
  | cons x xs =>
    by_cases h : found (x :: xs) k
    · have h' := h
      unfold found at h'
      simp [contains, rootOf, containsFrom, h, h']
    · have h' := h
      unfold found at h'
      simp [contains, rootOf, containsFrom, h, h']

theorem ins_erase_ins {l : List Int} (hs : l.Pairwise (· < ·)) (k : Int) :
    ins ((ins l k).erase k) k = ins l k := by
  apply sorted_ext (ins_pairwise (erase_pairwise (ins_pairwise hs k) k) k) (ins_pairwise hs k)
  intro x
  simp only [mem_ins, mem_erase_sorted (ins_pairwise hs k)]
  tauto


/-! ## Unfolding the data-model invariants -/

theorem above_none (x : Int) : above none x = true := rfl

theorem above_some (lo x : Int) : above (some lo) x = true ↔ lo < x := by
  simp [above]

theorem wf_null : wf .null = false := by simp [wf]

theorem wf_node_iff (vals : List Int) (cs : Children) (leaf : Bool) :
    wf (.node vals cs leaf) = true ↔
      vals.Pairwise (· < ·) ∧
        (if leaf = true then cs = .nil else wfChildren none vals cs = true) := by
  cases leaf <;> cases cs <;> simp [wf]

theorem wfChildren_nil (lo : Option Int) (vals : List Int) :
    wfChildren lo vals .nil = false := by
  cases vals <;> simp [wfChildren]

theorem wfChildren_nil_iff (lo : Option Int) (c : NodePtr) (cs : Children) :
    wfChildren lo [] (.cons c cs) = true ↔
      cs = .nil ∧ wf c = true ∧ ∀ x ∈ keys c, above lo x = true := by
  cases cs <;> simp [wfChildren, keys]

theorem wfChildren_cons_iff (lo : Option Int) (v : Int) (vs : List Int) (c : NodePtr)
    (cs : Children) :
    wfChildren lo (v :: vs) (.cons c cs) = true ↔
      wf c = true ∧ (∀ x ∈ keys c, above lo x = true ∧ x < v) ∧
        wfChildren (some v) vs cs = true := by
  simp [wfChildren, keys, and_assoc]

theorem wfChildren_length : ∀ (vals : List Int) (cs : Children) (lo : Option Int),
    wfChildren lo vals cs = true → cs.toList.length = vals.length + 1 := by
  intro vals
  induction vals with
  | nil =>
    intro cs lo h
    cases cs with
    | nil => simp [wfChildren_nil] at h
    | cons c cs =>
      rw [wfChildren_nil_iff] at h
      simp [h.1, Children.toList]
  | cons v vs ih =>
    intro cs lo h
    cases cs with
    | nil => simp [wfChildren_nil] at h
    | cons c cs =>
      rw [wfChildren_cons_iff] at h
      simp [Children.toList, ih cs _ h.2.2]

theorem wfChildren_wf : ∀ (vals : List Int) (cs : Children) (lo : Option Int),
    wfChildren lo vals cs = true → ∀ c ∈ cs.toList, wf c = true := by
  intro vals
  induction vals with
  | nil =>
    intro cs lo h
    cases cs with
    | nil => simp [wfChildren_nil] at h
    | cons c cs =>
      rw [wfChildren_nil_iff] at h
      simp [h.1, h.2.1, Children.toList]
  | cons v vs ih =>
    intro cs lo h
    cases cs with
    | nil => simp [wfChildren_nil] at h
    | cons c cs =>
      rw [wfChildren_cons_iff] at h
      intro c' hc'
      simp only [Children.toList, List.mem_cons] at hc'
      rcases hc' with rfl | hc'
      · exact h.1
      · exact ih cs _ h.2.2 c' hc'

theorem leavesNonEmptyAll_mem : ∀ (cs : Children), leavesNonEmptyAll cs = true →
    ∀ c ∈ cs.toList, leavesNonEmpty c = true := by
  intro cs
  induction cs using Children.children_induct with
  | hnil => intro _ c hc; simp [Children.toList] at hc
  | hcons c cs ih =>
    intro h c' hc'
    simp only [leavesNonEmptyAll, Bool.and_eq_true] at h
    simp only [Children.toList, List.mem_cons] at hc'
    rcases hc' with rfl | hc'
    · exact h.1
    · exact ih h.2 c' hc'

/-! ## Enumeration of a well-formed tree is strictly ascending -/

theorem interleave_cons_nil (c : NodePtr) (cs : Children) :
    interleave (.cons c cs) [] = keys c ++ interleave cs [] := by
  simp [interleave]

theorem interleave_cons_cons (c : NodePtr) (cs : Children) (v : Int) (vs : List Int) :
    interleave (.cons c cs) (v :: vs) = keys c ++ v :: interleave cs vs := by
  simp [interleave]

theorem interleave_nil (vs : List Int) : interleave .nil vs = [] := by
  simp [interleave]

theorem interleave_sorted : ∀ (vals : List Int) (cs : Children) (lo : Option Int),
    wfChildren lo vals cs = true → vals.Pairwise (· < ·) → (∀ v ∈ vals, above lo v = true) →
    (∀ c ∈ cs.toList, wf c = true → (keys c).Pairwise (· < ·)) →
    (interleave cs vals).Pairwise (· < ·) ∧ ∀ x ∈ interleave cs vals, above lo x = true := by
  intro vals
  induction vals with
  | nil =>
    intro cs lo h _ _ hc
    cases cs with
    | nil => simp [wfChildren_nil] at h
    | cons c cs =>
      rw [wfChildren_nil_iff] at h
      obtain ⟨rfl, hwf, hab⟩ := h
      rw [interleave_cons_nil, interleave_nil, List.append_nil]
      exact ⟨hc c (by simp [Children.toList]) hwf, hab⟩
  | cons v vs ih =>
    intro cs lo h hs hlo hc
    cases cs with
    | nil => simp [wfChildren_nil] at h
    | cons c cs =>
      rw [wfChildren_cons_iff] at h
      obtain ⟨hwf, hab, hrest⟩ := h
      rw [List.pairwise_cons] at hs
      have hlo' : ∀ w ∈ vs, above (some v) w = true := by
        intro w hw
        rw [above_some]
        exact hs.1 w hw
      obtain ⟨hp, hb⟩ := ih cs (some v) hrest hs.2 hlo'
        (fun c' hc' => hc c' (by simp [Children.toList, hc']))
      have hv : above lo v = true := hlo v (List.mem_cons_self _ _)
      have hgt : ∀ x ∈ interleave cs vs, v < x := fun x hx => (above_some v x).mp (hb x hx)
      rw [interleave_cons_cons]
      constructor
      · rw [List.pairwise_append]
        refine ⟨hc c (by simp [Children.toList]) hwf, ?_, ?_⟩
        · rw [List.pairwise_cons]
          exact ⟨hgt, hp⟩
        · intro a ha b hb'
          rcases List.mem_cons.mp hb' with rfl | hb'
          · exact (hab a ha).2
          · exact lt_trans (hab a ha).2 (hgt b hb')
      · intro x hx
        rcases List.mem_append.mp hx with hx | hx
        · exact (hab x hx).1
        · rcases List.mem_cons.mp hx with rfl | hx
          · exact hv
          · cases lo with
            | none => rfl
            | some l =>
              rw [above_some] at hv ⊢
              exact lt_trans hv (hgt x hx)

theorem keys_sorted : ∀ (p : NodePtr), wf p = true → (keys p).Pairwise (· < ·) := by
  intro p
  induction p using NodePtr.node_induct with
  | hnull => intro _; simp [keys_null]
  | hnode vals cs leaf ih =>
    intro h
    rw [wf_node_iff] at h
    obtain ⟨hs, hc⟩ := h
    cases leaf with
    | true =>
      simp only [if_true] at hc
      subst hc
      rw [keys_leaf]; exact hs
    | false =>
      simp only [Bool.false_eq_true, if_false] at hc
      rw [keys_internal]
      exact (interleave_sorted vals cs none hc hs (fun _ _ => rfl) ih).1

theorem getAllValues_sorted {t : MTree} (h : WellFormed t) :
    (getAllValues t).Pairwise (· < ·) := by
  rcases h with h | h
  · simp [getAllValues, h, collectValues]
  · exact keys_sorted t.root h


/-! ## Search paths -/

theorem upper_eq_lower_of_not_found : ∀ (l : List Int) (k : Int), ¬ found l k →
    upper_bound l k = lower_bound l k := by
  intro l k
  induction l with
  | nil => intro _; rfl
  | cons x xs ih =>
    intro h
    rw [found_cons] at h
    by_cases hx : x < k
    · simp only [hx, if_true] at h
      have : ¬ k < x := by omega
      simp [upper_bound, lower_bound, hx, this, ih h]
    · simp only [hx, if_false] at h
      have : k < x := by omega
      simp [upper_bound, lower_bound, hx, this]

theorem upper_bound_le (l : List Int) (k : Int) : upper_bound l k ≤ l.length := by
  induction l with
  | nil => simp [upper_bound]
  | cons x xs ih =>
    simp only [upper_bound, List.length_cons]
    split <;> omega

theorem lower_bound_le (l : List Int) (k : Int) : lower_bound l k ≤ l.length := by
  induction l with
  | nil => simp [lower_bound]
  | cons x xs ih =>
    simp only [lower_bound, List.length_cons]
    split <;> omega

theorem found_ins (l : List Int) (k : Int) : found (ins l k) k := by
  induction l with
  | nil => simp [ins_nil, found_cons]
  | cons x xs ih =>
    rw [ins_cons]
    split_ifs with h1 h2
    · rw [found_cons]; simp [h1, ih]
    · rw [found_cons]; simp [h2]
    · rw [found_cons]; simp

theorem containsFrom_node (vals : List Int) (cs : Children) (leaf : Bool) (k : Int) :
    containsFrom (.node vals cs leaf) k =
      if found vals k then some true
      else if leaf = true then some false
      else containsChild cs (lower_bound vals k) k := by
  simp only [containsFrom, found]

theorem insertChild_contains (k : Int) : ∀ (cs : Children) (u : Nat),
    (∀ c ∈ cs.toList, ∃ c', insertInto c k = some c' ∧ containsFrom c' k = some true) →
    u < cs.toList.length →
    ∃ cs', insertChild cs u k = some cs' ∧ containsChild cs' u k = some true := by
  intro cs
  induction cs using Children.children_induct with
  | hnil => intro u _ hu; simp [Children.toList] at hu
  | hcons c cs ih =>
    intro u hc hu
    cases u with
    | zero =>
      obtain ⟨c', h1, h2⟩ := hc c (by simp [Children.toList])
      exact ⟨.cons c' cs, by simp [insertChild, h1], by simpa [containsChild] using h2⟩
    | succ u' =>
      obtain ⟨cs', h1, h2⟩ := ih u' (fun c' hc' => hc c' (by simp [Children.toList, hc']))
        (by simpa [Children.toList] using hu)
      exact ⟨.cons c cs', by simp [insertChild, h1], by simpa [containsChild] using h2⟩

theorem insertInto_contains : ∀ (p : NodePtr), wf p = true → ∀ k : Int,
    ∃ p', insertInto p k = some p' ∧ containsFrom p' k = some true := by
  intro p
  induction p using NodePtr.node_induct with
  | hnull => intro h; simp [wf_null] at h
  | hnode vals cs leaf ih =>
    intro h k
    rw [wf_node_iff] at h
    obtain ⟨hs, hc⟩ := h
    cases leaf with
    | true =>
      refine ⟨.node (ins vals k) cs true, by simp [insertInto, ins], ?_⟩
      rw [containsFrom_node]
      simp [found_ins]
    | false =>
      simp only [Bool.false_eq_true, if_false] at hc
      have hlen := wfChildren_length vals cs none hc
      have hwf := wfChildren_wf vals cs none hc
      obtain ⟨cs', h1, h2⟩ := insertChild_contains k cs (upper_bound vals k)
        (fun c hc' => ih c hc' (hwf c hc') k)
        (by have := upper_bound_le vals k; omega)
      refine ⟨.node vals cs' false, by simp [insertInto, h1], ?_⟩
      rw [containsFrom_node]
      by_cases hf : found vals k
      · simp [hf]
      · simp only [hf, if_false, Bool.false_eq_true]
        rw [← upper_eq_lower_of_not_found vals k hf]
        exact h2

theorem removeChild_absent (k : Int) (T : Finset Int) : ∀ (cs : Children) (i : Nat),
    (∀ c ∈ cs.toList, containsFrom c k = some false → removeNode c k T = some (c, T)) →
    containsChild cs i k = some false → removeChild cs i k T = some (cs, T) := by
  intro cs
  induction cs using Children.children_induct with
  | hnil => intro i _ h; simp [containsChild] at h
  | hcons c cs ih =>
    intro i hc h
    cases i with
    | zero =>
      simp only [containsChild] at h
      simp [removeChild, hc c (by simp [Children.toList]) h]
    | succ i' =>
      simp only [containsChild] at h
      simp [removeChild, ih i' (fun c' hc' => hc c' (by simp [Children.toList, hc'])) h]

theorem removeNode_absent : ∀ (p : NodePtr) (k : Int) (T : Finset Int),
    containsFrom p k = some false → removeNode p k T = some (p, T) := by
  intro p
  induction p using NodePtr.node_induct with
  | hnull => intro k T _; simp [removeNode]
  | hnode vals cs leaf ih =>
    intro k T h
    rw [containsFrom_node] at h
    by_cases hf : found vals k
    · simp [hf] at h
    · simp only [hf, if_false] at h
      have hf' := hf
      unfold found at hf'
      cases leaf with
      | true => simp [removeNode, hf']
      | false =>
        simp only [Bool.false_eq_true, if_false] at h
        have := removeChild_absent k T cs (lower_bound vals k)
          (fun c hc hcon => ih c hc k T hcon) h
        simp [removeNode, hf', this]


/-! ## Recursive removal on a well-formed tree -/

theorem removeNode_internal (vals : List Int) (cs : Children) (k : Int) (T : Finset Int) :
    removeNode (.node vals cs false) k T =
      (removeInternal vals cs k T).map (fun r => (NodePtr.node r.1 r.2.1 false, r.2.2)) := by
  simp only [removeNode, removeInternal]
  split
  · cases cs.get? (lower_bound vals k + 1) with
    | none => rfl
    | some s =>
      simp only [Bool.false_eq_true, if_false]
      cases successorValue s with
      | none => rfl
      | some r =>
        simp only
        cases removeChild cs (lower_bound vals k + 1) r T <;> rfl
  · simp only [Bool.not_false, if_true]
    cases removeChild cs (lower_bound vals k) k T <;> rfl

theorem removeInternal_nil (c : NodePtr) (cs : Children) (k : Int) (T : Finset Int) :
    removeInternal [] (.cons c cs) k T =
      (removeNode c k T).map (fun r => ([], Children.cons r.1 cs, r.2)) := by
  simp only [removeInternal, lower_bound, List.getElem?_nil, removeChild]
  cases removeNode c k T <;> simp

theorem removeInternal_lt {v k : Int} (h : v < k) (vs : List Int) (c : NodePtr)
    (cs : Children) (T : Finset Int) :
    removeInternal (v :: vs) (.cons c cs) k T =
      (removeInternal vs cs k T).map (fun r => (v :: r.1, Children.cons c r.2.1, r.2.2)) := by
  simp only [removeInternal, lower_bound, h, if_true, List.getElem?_cons_succ, Children.get?,
    removeChild, List.set_cons_succ]
  split
  · cases cs.get? (lower_bound vs k + 1) with
    | none => rfl
    | some s =>
      simp only
      cases successorValue s with
      | none => rfl
      | some r =>
        simp only
        cases removeChild cs (lower_bound vs k + 1) r T <;> rfl
  · cases removeChild cs (lower_bound vs k) k T <;> rfl

theorem removeInternal_gt {v k : Int} (h : k < v) (vs : List Int) (c : NodePtr)
    (cs : Children) (T : Finset Int) :
    removeInternal (v :: vs) (.cons c cs) k T =
      (removeNode c k T).map (fun r => (v :: vs, Children.cons r.1 cs, r.2)) := by
  have h1 : ¬ v < k := by omega
  have h2 : ¬ v = k := by omega
  simp only [removeInternal, lower_bound, h1, if_false, List.getElem?_cons_zero,
    Option.some.injEq, h2, removeChild]
  cases removeNode c k T <;> rfl

theorem removeInternal_eq (k : Int) (vs : List Int) (c c1 : NodePtr) (cs : Children)
    (T : Finset Int) :
    removeInternal (k :: vs) (.cons c (.cons c1 cs)) k T =
      (successorValue c1).bind (fun r =>
        (removeNode c1 r T).map (fun q => (r :: vs, Children.cons c (.cons q.1 cs), q.2))) := by
  simp only [removeInternal, lower_bound, lt_irrefl, if_false, List.getElem?_cons_zero,
    if_true, Children.get?, removeChild, List.set_cons_zero]
  cases successorValue c1 with
  | none => rfl
  | some r =>
    simp only [Option.some_bind]
    cases removeNode c1 r T <;> rfl

/-- Removing the in-order first key of a well-formed subtree with non-empty leaves: the
successor search returns the head of the enumeration, and the recursive removal erases it
from a leaf and records it as a tombstone. -/
theorem removeNode_first : ∀ (p : NodePtr), wf p = true → leavesNonEmpty p = true →
    ∃ r rest, successorValue p = some r ∧ keys p = r :: rest ∧
      ∀ T : Finset Int, ∃ p', removeNode p r T = some (p', Insert.insert r T) ∧
        keys p' = rest := by
  intro p
  induction p using NodePtr.node_induct with
  | hnull => intro h; simp [wf_null] at h
  | hnode vals cs leaf ih =>
    intro h hne
    rw [wf_node_iff] at h
    obtain ⟨hs, hc⟩ := h
    cases leaf with
    | true =>
      simp only [if_true] at hc
      subst hc
      cases vals with
      | nil => simp [leavesNonEmpty] at hne
      | cons r rest =>
        refine ⟨r, rest, by simp [successorValue], keys_leaf _, ?_⟩
        intro T
        refine ⟨.node rest .nil true, ?_, keys_leaf _⟩
        simp [removeNode, lower_bound, Node.removeValue]
    | false =>
      simp only [Bool.false_eq_true, if_false] at hc
      cases cs with
      | nil => simp [wfChildren_nil] at hc
      | cons c0 cs =>
        have hwf0 : wf c0 = true := wfChildren_wf vals _ none hc c0 (by simp [Children.toList])
        have hne0 : leavesNonEmpty c0 = true := by
          simp only [leavesNonEmpty, leavesNonEmptyAll, Bool.and_eq_true] at hne
          exact hne.2.1
        obtain ⟨r, rest0, hsucc, hkeys, hrem⟩ := ih c0 (by simp [Children.toList]) hwf0 hne0
        have hr : r ∈ keys c0 := by rw [hkeys]; exact List.mem_cons_self _ _
        cases vals with
        | nil =>
          refine ⟨r, rest0 ++ interleave cs [], by simpa [successorValue] using hsucc, ?_, ?_⟩
          · rw [keys_internal, interleave_cons_nil, hkeys]; rfl
          · intro T
            obtain ⟨c0', h1, h2⟩ := hrem T
            refine ⟨.node [] (.cons c0' cs) false, ?_, ?_⟩
            · rw [removeNode_internal, removeInternal_nil, h1]; rfl
            · rw [keys_internal, interleave_cons_nil, h2]
        | cons v vs =>
          rw [wfChildren_cons_iff] at hc
          have hrv : r < v := (hc.2.1 r hr).2
          refine ⟨r, rest0 ++ v :: interleave cs vs, by simpa [successorValue] using hsucc,
            ?_, ?_⟩
          · rw [keys_internal, interleave_cons_cons, hkeys]; rfl
          · intro T
            obtain ⟨c0', h1, h2⟩ := hrem T
            refine ⟨.node (v :: vs) (.cons c0' cs) false, ?_, ?_⟩
            · rw [removeNode_internal, removeInternal_gt hrv, h1]; rfl
            · rw [keys_internal, interleave_cons_cons, h2]


theorem removeInternal_spec (k : Int) :
    ∀ (vals : List Int) (cs : Children) (lo : Option Int),
    wfChildren lo vals cs = true → vals.Pairwise (· < ·) → (∀ v ∈ vals, above lo v = true) →
    leavesNonEmptyAll cs = true →
    (∀ c ∈ cs.toList, wf c = true → leavesNonEmpty c = true → ∀ T : Finset Int,
      ∃ c' T', removeNode c k T = some (c', T') ∧ keys c' = (keys c).erase k) →
    ∀ T : Finset Int, ∃ vals' cs' T', removeInternal vals cs k T = some (vals', cs', T') ∧
      interleave cs' vals' = (interleave cs vals).erase k := by
  intro vals
  induction vals with
  | nil =>
    intro cs lo h _ _ hne ih T
    cases cs with
    | nil => simp [wfChildren_nil] at h
    | cons c cs =>
      rw [wfChildren_nil_iff] at h
      obtain ⟨rfl, hwf, _⟩ := h
      have hne0 : leavesNonEmpty c = true := by
        simp only [leavesNonEmptyAll, Bool.and_eq_true] at hne
        exact hne.1
      obtain ⟨c', T', h1, h2⟩ := ih c (by simp [Children.toList]) hwf hne0 T
      refine ⟨[], .cons c' .nil, T', by rw [removeInternal_nil, h1]; rfl, ?_⟩
      rw [interleave_cons_nil, interleave_cons_nil, interleave_nil, List.append_nil,
        List.append_nil, h2]
  | cons v vs ihv =>
    intro cs lo h hs hlo hne ih T
    cases cs with
    | nil => simp [wfChildren_nil] at h
    | cons c cs =>
      rw [wfChildren_cons_iff] at h
      obtain ⟨hwf, hab, hrest⟩ := h
      rw [List.pairwise_cons] at hs
      simp only [leavesNonEmptyAll, Bool.and_eq_true] at hne
      have hlo' : ∀ w ∈ vs, above (some v) w = true := by
        intro w hw
        rw [above_some]
        exact hs.1 w hw
      have hgt : ∀ x ∈ interleave cs vs, v < x := by
        intro x hx
        have := (interleave_sorted vs cs (some v) hrest hs.2 hlo'
          (fun c' _ hc' => keys_sorted c' hc')).2 x hx
        exact (above_some v x).mp this
      rcases lt_trichotomy v k with hvk | hvk | hvk
      · -- the search continues to the right of `v`
        obtain ⟨vals', cs', T', h1, h2⟩ := ihv cs (some v) hrest hs.2 hlo' hne.2
          (fun c' hc' => ih c' (by simp [Children.toList, hc'])) T
        refine ⟨v :: vals', .cons c cs', T', by rw [removeInternal_lt hvk, h1]; rfl, ?_⟩
        have hnot : k ∉ keys c := by
          intro hk
          have := (hab k hk).2
          omega
        rw [interleave_cons_cons, interleave_cons_cons, h2, List.erase_append_right _ hnot,
          List.erase_cons_tail (by simpa using ne_of_lt hvk)]
      · -- `k` is the separator `v`: promote the successor
        subst hvk
        cases cs with
        | nil => simp [wfChildren_nil] at hrest
        | cons c1 cs1 =>
          have hwf1 : wf c1 = true :=
            wfChildren_wf vs _ (some v) hrest c1 (by simp [Children.toList])
          have hne1 : leavesNonEmpty c1 = true := by
            have := hne.2
            simp only [leavesNonEmptyAll, Bool.and_eq_true] at this
            exact this.1
          obtain ⟨r, rest, hsucc, hkeys, hrem⟩ := removeNode_first c1 hwf1 hne1
          obtain ⟨c1', h1, h2⟩ := hrem T
          refine ⟨r :: vs, .cons c (.cons c1' cs1), Insert.insert r T,
            by rw [removeInternal_eq, hsucc, Option.some_bind, h1]; rfl, ?_⟩
          have hnot : v ∉ keys c := by
            intro hk
            have := (hab v hk).2
            omega
          rw [interleave_cons_cons, interleave_cons_cons, List.erase_append_right _ hnot,
            List.erase_cons_head]
          cases vs with
          | nil => rw [interleave_cons_nil, interleave_cons_nil, h2, hkeys]; rfl
          | cons w ws => rw [interleave_cons_cons, interleave_cons_cons, h2, hkeys]; rfl
      · -- the search descends into the child to the left of `v`
        obtain ⟨c', T', h1, h2⟩ := ih c (by simp [Children.toList]) hwf hne.1 T
        refine ⟨v :: vs, .cons c' cs, T', by rw [removeInternal_gt hvk, h1]; rfl, ?_⟩
        rw [interleave_cons_cons, interleave_cons_cons, h2]
        by_cases hk : k ∈ keys c
        · rw [List.erase_append_left _ hk]
        · have hnot : k ∉ v :: interleave cs vs := by
            intro hmem
            rcases List.mem_cons.mp hmem with rfl | hmem
            · omega
            · have := hgt k hmem
              omega
          rw [List.erase_append_right _ hk, List.erase_of_not_mem hk,
            List.erase_of_not_mem hnot]

/-- The recursive removal on a well-formed tree with non-empty leaves returns, and the new
enumeration is the old one with the key erased. -/
theorem removeNode_spec : ∀ (p : NodePtr), wf p = true → leavesNonEmpty p = true →
    ∀ (k : Int) (T : Finset Int), ∃ p' T', removeNode p k T = some (p', T') ∧
      keys p' = (keys p).erase k := by
  intro p
  induction p using NodePtr.node_induct with
  | hnull => intro h; simp [wf_null] at h
  | hnode vals cs leaf ih =>
    intro h hne k T
    have hwf := h
    rw [wf_node_iff] at h
    obtain ⟨hs, hc⟩ := h
    cases leaf with
    | true =>
      simp only [if_true] at hc
      subst hc
      by_cases hf : found vals k
      · have hf' := hf
        unfold found at hf'
        refine ⟨.node (rem vals k) .nil true, Insert.insert k T, by simp [removeNode, hf', rem],
          ?_⟩
        rw [keys_leaf, keys_leaf, rem_eq_erase hs]
      · have hf' := hf
        unfold found at hf'
        refine ⟨.node vals .nil true, T, by simp [removeNode, hf'], ?_⟩
        have hk : k ∉ vals := fun hk => hf ((found_iff_mem hs k).mpr hk)
        rw [keys_leaf, List.erase_of_not_mem hk]
    | false =>
      simp only [Bool.false_eq_true, if_false] at hc
      have hne' : leavesNonEmptyAll cs = true := by
        simpa [leavesNonEmpty] using hne
      obtain ⟨vals', cs', T', h1, h2⟩ := removeInternal_spec k vals cs none hc hs
        (fun _ _ => rfl) hne' (fun c hc' hw hn T => ih c hc' hw hn k T) T
      refine ⟨.node vals' cs' false, T', by rw [removeNode_internal, h1]; rfl, ?_⟩
      rw [keys_internal, keys_internal, h2]

/-- The public `remove` on a well-formed index with non-empty leaves returns a single-leaf
tree holding the old enumeration with the key erased. -/
theorem remove_spec {t : MTree} (hwf : WellFormed t) (hne : leavesNonEmpty t.root = true)
    (k : Int) : ∃ T', remove t k = some ⟨rootOf ((getAllValues t).erase k), t.M, T'⟩ := by
  have hsorted := getAllValues_sorted hwf
  have hrem : ∃ p' T', removeNode t.root k t.removedValues = some (p', T') ∧
      keys p' = (keys t.root).erase k := by
    rcases hwf with h | h
    · rw [h]
      exact ⟨.null, t.removedValues, by simp [removeNode], by simp [keys_null]⟩
    · exact removeNode_spec t.root h hne k t.removedValues
  obtain ⟨p', T', h1, h2⟩ := hrem
  unfold remove
  simp only [h1]
  rw [rebuildTree_eq]
  simp only
  have hs' : (keys p').Pairwise (· < ·) := by
    rw [h2]; exact erase_pairwise hsorted k
  rw [foldl_ins_sorted _ [] (by simpa using hs')]
  simp only [List.nil_append, h2]
  exact ⟨_, rfl⟩


/-! ## Refinement of a set of keys -/

theorem mem_absKeys {l : List Int} (hs : l.Pairwise (· < ·)) (op : Op) (s : Finset Int)
    (h : ∀ x, x ∈ l ↔ x ∈ s) : ∀ x, x ∈ absKeys l op ↔ x ∈ setStep s op := by
  intro x
  cases op with
  | Insert k => simp [absKeys, setStep, mem_ins, h]
  | Remove k => simp [absKeys, setStep, mem_erase_sorted hs, h]
  | Rebuild => simp [absKeys, setStep, h]

theorem run_refines (ops : List Op) : ∀ (l : List Int) (m : Int) (T s : Finset Int),
    l.Pairwise (· < ·) → (∀ x ∈ l, x ∉ T) → (∀ x, x ∈ l ↔ x ∈ s) →
    ∃ t, run ⟨rootOf l, m, T⟩ ops = some t ∧ (getAllValues t).Pairwise (· < ·) ∧
      ∀ x, x ∈ getAllValues t ↔ x ∈ ops.foldl setStep s := by
  induction ops with
  | nil =>
    intro l m T s hs _ h
    refine ⟨_, rfl, ?_, ?_⟩
    · show (keys (rootOf l)).Pairwise (· < ·)
      rw [keys_rootOf]; exact hs
    · intro x
      show x ∈ keys (rootOf l) ↔ _
      rw [keys_rootOf]; exact h x
  | cons op ops ih =>
    intro l m T s hs hd h
    obtain ⟨t, ht, hp, hm⟩ := ih (absKeys l op) m (absTomb l T op) (setStep s op)
      (absKeys_pairwise hs op) (abs_disjoint hs hd op) (mem_absKeys hs op s h)
    refine ⟨t, ?_, hp, ?_⟩
    · rw [run_cons, step_rootOf hs m hd op]; exact ht
    · simpa using hm

theorem sorted_eq_sort {l : List Int} (hs : l.Pairwise (· < ·)) (s : Finset Int)
    (h : ∀ x, x ∈ l ↔ x ∈ s) : l = s.sort (· ≤ ·) := by
  apply sorted_ext hs (Finset.sort_sorted_lt s)
  intro x
  rw [h, Finset.mem_sort]

theorem foldl_setStep_inserts (ks : List Int) : ∀ s : Finset Int,
    (ks.map Op.Insert).foldl setStep s = s ∪ ks.toFinset := by
  induction ks with
  | nil => intro s; simp
  | cons k ks ih =>
    intro s
    rw [List.map_cons, List.foldl_cons, ih]
    ext x
    simp only [setStep, Finset.mem_union, Finset.mem_insert, List.toFinset_cons]
    tauto

theorem setRun_inserts (ks : List Int) : setRun (ks.map Op.Insert) = ks.toFinset := by
  unfold setRun
  rw [foldl_setStep_inserts]
  simp


/-! ## Enumeration against the stored keys -/

theorem storedKeysAll_mem : ∀ (cs : Children) (c : NodePtr), c ∈ cs.toList →
    ∀ x ∈ storedKeys c, x ∈ storedKeysAll cs := by
  intro cs
  induction cs using Children.children_induct with
  | hnil => intro c hc; simp [Children.toList] at hc
  | hcons c0 cs ih =>
    intro c hc x hx
    simp only [Children.toList, List.mem_cons] at hc
    simp only [storedKeysAll, List.mem_append]
    rcases hc with rfl | hc
    · exact Or.inl hx
    · exact Or.inr (ih c hc x hx)

theorem interleave_perm : ∀ (vals : List Int) (cs : Children) (lo : Option Int),
    wfChildren lo vals cs = true →
    (∀ c ∈ cs.toList, wf c = true → (keys c).Perm (storedKeys c)) →
    (interleave cs vals).Perm (vals ++ storedKeysAll cs) := by
  intro vals
  induction vals with
  | nil =>
    intro cs lo h hc
    cases cs with
    | nil => simp [wfChildren_nil] at h
    | cons c cs =>
      rw [wfChildren_nil_iff] at h
      obtain ⟨rfl, hwf, _⟩ := h
      rw [interleave_cons_nil, interleave_nil]
      simpa [storedKeysAll] using hc c (by simp [Children.toList]) hwf
  | cons v vs ih =>
    intro cs lo h hc
    cases cs with
    | nil => simp [wfChildren_nil] at h
    | cons c cs =>
      rw [wfChildren_cons_iff] at h
      obtain ⟨hwf, _, hrest⟩ := h
      have h1 := ih cs (some v) hrest (fun c' hc' => hc c' (by simp [Children.toList, hc']))
      have h2 := hc c (by simp [Children.toList]) hwf
      rw [interleave_cons_cons]
      simp only [storedKeysAll, List.cons_append]
      refine List.perm_middle.trans (List.Perm.cons v ?_)
      refine (List.Perm.append h2 h1).trans ?_
      rw [← List.append_assoc, ← List.append_assoc]
      exact List.Perm.append_right _ List.perm_append_comm

theorem keys_perm_stored : ∀ (p : NodePtr), wf p = true → (keys p).Perm (storedKeys p) := by
  intro p
  induction p using NodePtr.node_induct with
  | hnull => intro h; simp [wf_null] at h
  | hnode vals cs leaf ih =>
    intro h
    rw [wf_node_iff] at h
    obtain ⟨_, hc⟩ := h
    cases leaf with
    | true =>
      simp only [if_true] at hc
      subst hc
      rw [keys_leaf]
      simp [storedKeys, storedKeysAll]
    | false =>
      simp only [Bool.false_eq_true, if_false] at hc
      rw [keys_internal]
      simpa [storedKeys] using interleave_perm vals cs none hc ih

theorem sublist_pair_of_sorted : ∀ {l : List Int}, l.Pairwise (· < ·) → ∀ {a b : Int},
    a ∈ l → b ∈ l → a < b → List.Sublist [a, b] l := by
  intro l
  induction l with
  | nil => intro _ a b ha; simp at ha
  | cons x xs ih =>
    intro hs a b ha hb hab
    rw [List.pairwise_cons] at hs
    have hb' : b ∈ xs := by
      rcases List.mem_cons.mp hb with rfl | hb
      · rcases List.mem_cons.mp ha with rfl | ha
        · omega
        · have := hs.1 a ha
          omega
      · exact hb
    rcases List.mem_cons.mp ha with rfl | ha
    · exact List.Sublist.cons₂ _ (List.singleton_sublist.mpr hb')
    · exact List.Sublist.cons _ (ih hs.2 ha hb' hab)

/-! ## Lookup against the enumeration -/

theorem containsFrom_internal_nil (c : NodePtr) (cs : Children) (k : Int) :
    containsFrom (.node [] (.cons c cs) false) k = containsFrom c k := by
  simp [containsFrom_node, found_nil, lower_bound, containsChild]

theorem containsFrom_internal_lt {v k : Int} (h : v < k) (vs : List Int) (c : NodePtr)
    (cs : Children) :
    containsFrom (.node (v :: vs) (.cons c cs) false) k =
      containsFrom (.node vs cs false) k := by
  simp [containsFrom_node, found_cons, h, lower_bound, containsChild]

theorem containsFrom_internal_gt {v k : Int} (h : k < v) (vs : List Int) (c : NodePtr)
    (cs : Children) :
    containsFrom (.node (v :: vs) (.cons c cs) false) k = containsFrom c k := by
  have h1 : ¬ v < k := by omega
  have h2 : ¬ v = k := by omega
  simp [containsFrom_node, found_cons, h1, h2, lower_bound, containsChild]

theorem containsFrom_internal_eq (k : Int) (vs : List Int) (cs : Children) :
    containsFrom (.node (k :: vs) cs false) k = some true := by
  simp [containsFrom_node, found_cons]

theorem containsFrom_internal_spec (k : Int) :
    ∀ (vals : List Int) (cs : Children) (lo : Option Int),
    wfChildren lo vals cs = true → vals.Pairwise (· < ·) → (∀ v ∈ vals, above lo v = true) →
    (∀ c ∈ cs.toList, wf c = true → containsFrom c k = some (decide (k ∈ keys c))) →
    containsFrom (.node vals cs false) k = some (decide (k ∈ interleave cs vals)) := by
  intro vals
  induction vals with
  | nil =>
    intro cs lo h _ _ ih
    cases cs with
    | nil => simp [wfChildren_nil] at h
    | cons c cs =>
      rw [wfChildren_nil_iff] at h
      obtain ⟨rfl, hwf, _⟩ := h
      rw [containsFrom_internal_nil, ih c (by simp [Children.toList]) hwf,
        interleave_cons_nil, interleave_nil, List.append_nil]
  | cons v vs ihv =>
    intro cs lo h hs hlo ih
    cases cs with
    | nil => simp [wfChildren_nil] at h
    | cons c cs =>
      rw [wfChildren_cons_iff] at h
      obtain ⟨hwf, hab, hrest⟩ := h
      rw [List.pairwise_cons] at hs
      have hlo' : ∀ w ∈ vs, above (some v) w = true := by
        intro w hw
        rw [above_some]
        exact hs.1 w hw
      have hgt : ∀ x ∈ interleave cs vs, v < x := by
        intro x hx
        have := (interleave_sorted vs cs (some v) hrest hs.2 hlo'
          (fun c' _ hc' => keys_sorted c' hc')).2 x hx
        exact (above_some v x).mp this
      rw [interleave_cons_cons]
      rcases lt_trichotomy v k with hvk | hvk | hvk
      · rw [containsFrom_internal_lt hvk, ihv cs (some v) hrest hs.2 hlo'
          (fun c' hc' => ih c' (by simp [Children.toList, hc']))]
        have hnot : k ∉ keys c := by
          intro hk
          have := (hab k hk).2
          omega
        have hne : ¬ k = v := by omega
        simp [hnot, hne]
      · subst hvk
        rw [containsFrom_internal_eq]
        simp
      · rw [containsFrom_internal_gt hvk, ih c (by simp [Children.toList]) hwf]
        have hnot : k ∉ interleave cs vs := by
          intro hk
          have := hgt k hk
          omega
        have hne : ¬ k = v := by omega
        simp [hnot, hne]

theorem containsFrom_spec : ∀ (p : NodePtr), wf p = true → ∀ k : Int,
    containsFrom p k = some (decide (k ∈ keys p)) := by
  intro p
  induction p using NodePtr.node_induct with
  | hnull => intro h; simp [wf_null] at h
  | hnode vals cs leaf ih =>
    intro h k
    rw [wf_node_iff] at h
    obtain ⟨hs, hc⟩ := h
    cases leaf with
    | true =>
      simp only [if_true] at hc
      subst hc
      rw [containsFrom_node, keys_leaf]
      by_cases hf : found vals k
      · simp [hf, found_mem hf]
      · have : k ∉ vals := fun hk => hf ((found_iff_mem hs k).mpr hk)
        simp [hf, this]
    | false =>
      simp only [Bool.false_eq_true, if_false] at hc
      rw [keys_internal]
      exact containsFrom_internal_spec k vals cs none hc hs (fun _ _ => rfl)
        (fun c hc' hw => ih c hc' hw k)


/-! ## Insertion keeps the structure of the tree -/

theorem ins_shape (vs : List Int) (k : Int) :
    ins vs k = vs ∨ (k ∉ vs ∧ ∃ i : Nat, ins vs k = vs.take i ++ k :: vs.drop i) ∨
      (k ∈ vs ∧ ∃ i : Nat, ins vs k = vs.take i ++ k :: vs.drop i) := by
  unfold ins Node.insertValue
  by_cases h : vs[lower_bound vs k]? = some k
  · simp [h]
  · by_cases hk : k ∈ vs
    · exact Or.inr (Or.inr ⟨hk, lower_bound vs k, by simp [h]⟩)
    · exact Or.inr (Or.inl ⟨hk, lower_bound vs k, by simp [h]⟩)

theorem insertChild_frame (k : Int) : ∀ (cs : Children) (u : Nat),
    (∀ c ∈ cs.toList, ∃ c', insertInto c k = some c' ∧ skeleton c' = skeleton c ∧
      ∃ pre vs post, leafVectors c = pre ++ vs :: post ∧
        leafVectors c' = pre ++ ins vs k :: post ∧ vs.Pairwise (· < ·)) →
    u < cs.toList.length →
    ∃ cs', insertChild cs u k = some cs' ∧ skeletonAll cs' = skeletonAll cs ∧
      ∃ pre vs post, leafVectorsAll cs = pre ++ vs :: post ∧
        leafVectorsAll cs' = pre ++ ins vs k :: post ∧ vs.Pairwise (· < ·) := by
  intro cs
  induction cs using Children.children_induct with
  | hnil => intro u _ hu; simp [Children.toList] at hu
  | hcons c cs ih =>
    intro u hc hu
    cases u with
    | zero =>
      obtain ⟨c', h1, h2, pre, vs, post, h3, h4, h5⟩ := hc c (by simp [Children.toList])
      refine ⟨.cons c' cs, by simp [insertChild, h1], by simp [skeletonAll, h2],
        pre, vs, post ++ leafVectorsAll cs, ?_, ?_, h5⟩
      · simp [leafVectorsAll, h3]
      · simp [leafVectorsAll, h4]
    | succ u' =>
      obtain ⟨cs', h1, h2, pre, vs, post, h3, h4, h5⟩ :=
        ih u' (fun c' hc' => hc c' (by simp [Children.toList, hc']))
          (by simpa [Children.toList] using hu)
      refine ⟨.cons c cs', by simp [insertChild, h1], by simp [skeletonAll, h2],
        leafVectors c ++ pre, vs, post, ?_, ?_, h5⟩
      · simp [leafVectorsAll, h3]
      · simp [leafVectorsAll, h4]

theorem insertInto_frame : ∀ (p : NodePtr), wf p = true → ∀ k : Int,
    ∃ p', insertInto p k = some p' ∧ skeleton p' = skeleton p ∧
      ∃ pre vs post, leafVectors p = pre ++ vs :: post ∧
        leafVectors p' = pre ++ ins vs k :: post ∧ vs.Pairwise (· < ·) := by
  intro p
  induction p using NodePtr.node_induct with
  | hnull => intro h; simp [wf_null] at h
  | hnode vals cs leaf ih =>
    intro h k
    rw [wf_node_iff] at h
    obtain ⟨hs, hc⟩ := h
    cases leaf with
    | true =>
      simp only [if_true] at hc
      subst hc
      refine ⟨.node (ins vals k) .nil true, by simp [insertInto, ins], by simp [skeleton],
        [], vals, [], ?_, ?_, hs⟩
      · simp [leafVectors, leafVectorsAll]
      · simp [leafVectors, leafVectorsAll]
    | false =>
      simp only [Bool.false_eq_true, if_false] at hc
      have hlen := wfChildren_length vals cs none hc
      have hwf := wfChildren_wf vals cs none hc
      obtain ⟨cs', h1, h2, pre, vs, post, h3, h4, h5⟩ :=
        insertChild_frame k cs (upper_bound vals k)
          (fun c hc' => ih c hc' (hwf c hc') k)
          (by have := upper_bound_le vals k; omega)
      refine ⟨.node vals cs' false, by simp [insertInto, h1], by simp [skeleton, h2],
        pre, vs, post, ?_, ?_, h5⟩
      · simp [leafVectors, h3]
      · simp [leafVectors, h4]


/-! ## Removal of a separator: successor promotion -/

theorem removeNode_first_wf : ∀ (p : NodePtr), wf p = true → leavesNonEmpty p = true →
    ∃ r rest, successorValue p = some r ∧ keys p = r :: rest ∧
      ∀ T : Finset Int, ∃ p', removeNode p r T = some (p', Insert.insert r T) ∧
        keys p' = rest ∧ wf p' = true := by
  intro p
  induction p using NodePtr.node_induct with
  | hnull => intro h; simp [wf_null] at h
  | hnode vals cs leaf ih =>
    intro h hne
    rw [wf_node_iff] at h
    obtain ⟨hs, hc⟩ := h
    cases leaf with
    | true =>
      simp only [if_true] at hc
      subst hc
      cases vals with
      | nil => simp [leavesNonEmpty] at hne
      | cons r rest =>
        refine ⟨r, rest, by simp [successorValue], keys_leaf _, ?_⟩
        intro T
        refine ⟨.node rest .nil true, ?_, keys_leaf _, ?_⟩
        · simp [removeNode, lower_bound, Node.removeValue]
        · rw [wf_node_iff]
          exact ⟨(List.pairwise_cons.mp hs).2, by simp⟩
    | false =>
      simp only [Bool.false_eq_true, if_false] at hc
      cases cs with
      | nil => simp [wfChildren_nil] at hc
      | cons c0 cs =>
        have hwf0 : wf c0 = true := wfChildren_wf vals _ none hc c0 (by simp [Children.toList])
        have hne0 : leavesNonEmpty c0 = true := by
          simp only [leavesNonEmpty, leavesNonEmptyAll, Bool.and_eq_true] at hne
          exact hne.2.1
        obtain ⟨r, rest0, hsucc, hkeys, hrem⟩ := ih c0 (by simp [Children.toList]) hwf0 hne0
        have hr : r ∈ keys c0 := by rw [hkeys]; exact List.mem_cons_self _ _
        have hsub : ∀ x ∈ rest0, x ∈ keys c0 := by
          intro x hx; rw [hkeys]; exact List.mem_cons_of_mem _ hx
        cases vals with
        | nil =>
          refine ⟨r, rest0 ++ interleave cs [], by simpa [successorValue] using hsucc, ?_, ?_⟩
          · rw [keys_internal, interleave_cons_nil, hkeys]; rfl
          · intro T
            obtain ⟨c0', h1, h2, h3⟩ := hrem T
            refine ⟨.node [] (.cons c0' cs) false, ?_, ?_, ?_⟩
            · rw [removeNode_internal, removeInternal_nil, h1]; rfl
            · rw [keys_internal, interleave_cons_nil, h2]
            · rw [wfChildren_nil_iff] at hc
              rw [wf_node_iff]
              refine ⟨hs, ?_⟩
              simp only [Bool.false_eq_true, if_false]
              rw [wfChildren_nil_iff]
              exact ⟨hc.1, h3, fun _ _ => rfl⟩
        | cons v vs =>
          rw [wfChildren_cons_iff] at hc
          have hrv : r < v := (hc.2.1 r hr).2
          refine ⟨r, rest0 ++ v :: interleave cs vs, by simpa [successorValue] using hsucc,
            ?_, ?_⟩
          · rw [keys_internal, interleave_cons_cons, hkeys]; rfl
          · intro T
            obtain ⟨c0', h1, h2, h3⟩ := hrem T
            refine ⟨.node (v :: vs) (.cons c0' cs) false, ?_, ?_, ?_⟩
            · rw [removeNode_internal, removeInternal_gt hrv, h1]; rfl
            · rw [keys_internal, interleave_cons_cons, h2]
            · rw [wf_node_iff]
              refine ⟨hs, ?_⟩
              simp only [Bool.false_eq_true, if_false]
              rw [wfChildren_cons_iff]
              refine ⟨h3, ?_, hc.2.2⟩
              intro x hx
              rw [h2] at hx
              exact hc.2.1 x (hsub x hx)

theorem isSeparator_stored_both :
    (∀ (p : NodePtr) (k : Int), isSeparator p k = true → k ∈ storedKeys p) ∧
    (∀ (cs : Children) (k : Int), isSeparatorAll cs k = true → k ∈ storedKeysAll cs) := by
  have key : ∀ (p : NodePtr) (k : Int), isSeparator p k = true → k ∈ storedKeys p := by
    intro p
    refine @NodePtr.rec (fun p => ∀ k : Int, isSeparator p k = true → k ∈ storedKeys p)
      (fun cs => ∀ k : Int, isSeparatorAll cs k = true → k ∈ storedKeysAll cs) ?_ ?_ ?_ ?_ p
    · intro k h; simp [isSeparator] at h
    · intro vals cs leaf ih k h
      simp only [isSeparator, Bool.or_eq_true, Bool.and_eq_true, decide_eq_true_eq] at h
      simp only [storedKeys, List.mem_append]
      rcases h with h | h
      · exact Or.inl h.2
      · exact Or.inr (ih k h)
    · intro k h; simp [isSeparatorAll] at h
    · intro c cs ih1 ih2 k h
      simp only [isSeparatorAll, Bool.or_eq_true] at h
      simp only [storedKeysAll, List.mem_append]
      rcases h with h | h
      · exact Or.inl (ih1 k h)
      · exact Or.inr (ih2 k h)
  refine ⟨key, ?_⟩
  intro cs
  induction cs using Children.children_induct with
  | hnil => intro k h; simp [isSeparatorAll] at h
  | hcons c cs ih =>
    intro k h
    simp only [isSeparatorAll, Bool.or_eq_true] at h
    simp only [storedKeysAll, List.mem_append]
    rcases h with h | h
    · exact Or.inl (key c k h)
    · exact Or.inr (ih k h)

theorem successorOf_none_both :
    (∀ (p : NodePtr) (k : Int), isSeparator p k = false → successorOf p k = none) ∧
    (∀ (cs : Children) (k : Int), isSeparatorAll cs k = false → successorOfAll cs k = none) := by
  have key : ∀ (p : NodePtr) (k : Int), isSeparator p k = false → successorOf p k = none := by
    intro p
    refine @NodePtr.rec (fun p => ∀ k : Int, isSeparator p k = false → successorOf p k = none)
      (fun cs => ∀ k : Int, isSeparatorAll cs k = false → successorOfAll cs k = none)
      ?_ ?_ ?_ ?_ p
    · intro k _; simp [successorOf]
    · intro vals cs leaf ih k h
      simp only [isSeparator, Bool.or_eq_false_iff] at h
      simp only [successorOf, h.1, Bool.false_eq_true, if_false]
      exact ih k h.2
    · intro k _; simp [successorOfAll]
    · intro c cs ih1 ih2 k h
      simp only [isSeparatorAll, Bool.or_eq_false_iff] at h
      simp only [successorOfAll, ih1 k h.1]
      exact ih2 k h.2
  refine ⟨key, ?_⟩
  intro cs
  induction cs using Children.children_induct with
  | hnil => intro k _; simp [successorOfAll]
  | hcons c cs ih =>
    intro k h
    simp only [isSeparatorAll, Bool.or_eq_false_iff] at h
    simp only [successorOfAll, key c k h.1]
    exact ih k h.2

theorem isSeparator_false_of_not_mem {p : NodePtr} (h : wf p = true) {k : Int}
    (hk : k ∉ keys p) : isSeparator p k = false := by
  cases hsep : isSeparator p k with
  | false => rfl
  | true =>
    exact absurd ((keys_perm_stored p h).mem_iff.mpr (isSeparator_stored_both.1 p k hsep)) hk

theorem isSeparatorAll_mem_interleave {vals : List Int} {cs : Children} {lo : Option Int}
    (h : wfChildren lo vals cs = true) {k : Int} (hk : isSeparatorAll cs k = true) :
    k ∈ interleave cs vals := by
  have hperm := interleave_perm vals cs lo h (fun c _ hc => keys_perm_stored c hc)
  exact hperm.mem_iff.mpr (List.mem_append_right _ (isSeparator_stored_both.2 cs k hk))

theorem successorOf_internal_nil (c : NodePtr) (cs : Children) (k : Int) :
    successorOf (.node [] (.cons c cs) false) k =
      match successorOf c k with
      | some r => some r
      | none => successorOfAll cs k := by
  simp [successorOf, successorOfAll]

theorem successorOf_internal_lt {v k : Int} (h : v < k) (vs : List Int) {c : NodePtr}
    (cs : Children) (hc : isSeparator c k = false) :
    successorOf (.node (v :: vs) (.cons c cs) false) k =
      successorOf (.node vs cs false) k := by
  have hne : ¬ k = v := by omega
  have hne' : v ≠ k := by omega
  simp only [successorOf, Bool.not_false, Bool.true_and, decide_eq_true_eq, List.mem_cons, hne,
    false_or, successorOfAll, successorOf_none_both.1 c k hc]
  by_cases hk : k ∈ vs
  · simp only [hk, if_true, List.indexOf_cons_ne _ hne', Children.get?]
  · simp only [hk, if_false]

theorem successorOf_internal_gt {v k : Int} (vs : List Int) (c : NodePtr) (cs : Children)
    (hk : k ∉ v :: vs) :
    successorOf (.node (v :: vs) (.cons c cs) false) k =
      match successorOf c k with
      | some r => some r
      | none => successorOfAll cs k := by
  simp only [successorOf, Bool.not_false, Bool.true_and, decide_eq_true_eq, hk, if_false,
    successorOfAll]

theorem successorOf_internal_eq (k : Int) (vs : List Int) (c c1 : NodePtr) (cs : Children) :
    successorOf (.node (k :: vs) (.cons c (.cons c1 cs)) false) k = successorValue c1 := by
  simp [successorOf, Children.get?]


theorem promote_internal (k : Int) :
    ∀ (vals : List Int) (cs : Children) (lo : Option Int),
    wfChildren lo vals cs = true → vals.Pairwise (· < ·) → (∀ v ∈ vals, above lo v = true) →
    leavesNonEmptyAll cs = true →
    (∀ c ∈ cs.toList, wf c = true → leavesNonEmpty c = true → isSeparator c k = true →
      ∀ T : Finset Int, ∃ r c', Promoted c k T r c') →
    (k ∈ vals ∨ isSeparatorAll cs k = true) →
    ∀ T : Finset Int, ∃ r vals' cs',
      successorOf (.node vals cs false) k = some r ∧
      removeInternal vals cs k T = some (vals', cs', Insert.insert r T) ∧
      wfChildren lo vals' cs' = true ∧ vals'.Pairwise (· < ·) ∧
      (∀ v ∈ vals', above lo v = true) ∧ k < r ∧
      (∃ pre post, interleave cs vals = pre ++ k :: r :: post ∧
        interleave cs' vals' = pre ++ r :: post) ∧
      (r ∈ vals' ∨ isSeparatorAll cs' r = true) := by
  intro vals
  induction vals with
  | nil =>
    intro cs lo h _ _ hne ih hsep T
    cases cs with
    | nil => simp [wfChildren_nil] at h
    | cons c cs =>
      rw [wfChildren_nil_iff] at h
      obtain ⟨rfl, hwf, hab⟩ := h
      have hne0 : leavesNonEmpty c = true := by
        simp only [leavesNonEmptyAll, Bool.and_eq_true] at hne
        exact hne.1
      have hsepc : isSeparator c k = true := by
        rcases hsep with hsep | hsep
        · simp at hsep
        · simpa [isSeparatorAll] using hsep
      obtain ⟨r, c', h1, h2, h3, h4, ⟨pre, post, h5, h6⟩, h7⟩ :=
        ih c (by simp [Children.toList]) hwf hne0 hsepc T
      refine ⟨r, [], .cons c' .nil, ?_, ?_, ?_, List.Pairwise.nil, by simp, h4,
        ⟨pre, post, ?_, ?_⟩, Or.inr (by simp [isSeparatorAll, h7])⟩
      · rw [successorOf_internal_nil, h1]
      · rw [removeInternal_nil, h2]; rfl
      · rw [wfChildren_nil_iff]
        refine ⟨rfl, h3, ?_⟩
        intro x hx
        apply hab
        rw [h6] at hx
        rw [h5]
        simp only [List.mem_append, List.mem_cons] at hx ⊢
        tauto
      · rw [interleave_cons_nil, interleave_nil, List.append_nil, h5]
      · rw [interleave_cons_nil, interleave_nil, List.append_nil, h6]
  | cons v vs ihv =>
    intro cs lo h hs hlo hne ih hsep T
    cases cs with
    | nil => simp [wfChildren_nil] at h
    | cons c cs =>
      rw [wfChildren_cons_iff] at h
      obtain ⟨hwf, hab, hrest⟩ := h
      have hs' := List.pairwise_cons.mp hs
      simp only [leavesNonEmptyAll, Bool.and_eq_true] at hne
      have hlov : above lo v = true := hlo v (List.mem_cons_self _ _)
      have hlo' : ∀ w ∈ vs, above (some v) w = true := by
        intro w hw
        rw [above_some]
        exact hs'.1 w hw
      have hgt : ∀ x ∈ interleave cs vs, v < x := by
        intro x hx
        have := (interleave_sorted vs cs (some v) hrest hs'.2 hlo'
          (fun c' _ hc' => keys_sorted c' hc')).2 x hx
        exact (above_some v x).mp this
      have habove_trans : ∀ x : Int, v < x → above lo x = true := by
        intro x hx
        cases lo with
        | none => rfl
        | some l =>
          rw [above_some] at hlov ⊢
          omega
      rcases lt_trichotomy v k with hvk | hvk | hvk
      · -- the search continues to the right of `v`
        have hnot : k ∉ keys c := by
          intro hk
          have := (hab k hk).2
          omega
        have hsepc : isSeparator c k = false := isSeparator_false_of_not_mem hwf hnot
        have hsep' : k ∈ vs ∨ isSeparatorAll cs k = true := by
          rcases hsep with hsep | hsep
          · rcases List.mem_cons.mp hsep with rfl | hsep
            · omega
            · exact Or.inl hsep
          · simp only [isSeparatorAll, hsepc, Bool.false_or] at hsep
            exact Or.inr hsep
        obtain ⟨r, vals', cs', h1, h2, h3, h4, h5, h6, ⟨pre, post, h7, h8⟩, h9⟩ :=
          ihv cs (some v) hrest hs'.2 hlo' hne.2
            (fun c' hc' => ih c' (by simp [Children.toList, hc'])) hsep' T
        have hv' : ∀ w ∈ vals', v < w := fun w hw => (above_some v w).mp (h5 w hw)
        refine ⟨r, v :: vals', .cons c cs', ?_, ?_, ?_, ?_, ?_, h6,
          ⟨keys c ++ v :: pre, post, ?_, ?_⟩, ?_⟩
        · rw [successorOf_internal_lt hvk vs cs hsepc, h1]
        · rw [removeInternal_lt hvk, h2]; rfl
        · rw [wfChildren_cons_iff]
          exact ⟨hwf, hab, h3⟩
        · rw [List.pairwise_cons]
          exact ⟨hv', h4⟩
        · intro w hw
          rcases List.mem_cons.mp hw with rfl | hw
          · exact hlov
          · exact habove_trans w (hv' w hw)
        · rw [interleave_cons_cons, h7]; simp
        · rw [interleave_cons_cons, h8]; simp
        · rcases h9 with h9 | h9
          · exact Or.inl (List.mem_cons_of_mem _ h9)
          · exact Or.inr (by simp [isSeparatorAll, h9])
      · -- `k` is the separator `v`: promote the successor
        subst hvk
        cases cs with
        | nil => simp [wfChildren_nil] at hrest
        | cons c1 cs1 =>
          have hwf1 : wf c1 = true :=
            wfChildren_wf vs _ (some v) hrest c1 (by simp [Children.toList])
          have hne1 : leavesNonEmpty c1 = true := by
            have := hne.2
            simp only [leavesNonEmptyAll, Bool.and_eq_true] at this
            exact this.1
          obtain ⟨r, rest, hsucc, hkeys, hrem⟩ := removeNode_first_wf c1 hwf1 hne1
          obtain ⟨c1', h1, h2, h3⟩ := hrem T
          have hr1 : r ∈ keys c1 := by rw [hkeys]; exact List.mem_cons_self _ _
          have hsorted1 := keys_sorted c1 hwf1
          rw [hkeys, List.pairwise_cons] at hsorted1
          have hsub : ∀ x ∈ rest, x ∈ keys c1 := by
            intro x hx; rw [hkeys]; exact List.mem_cons_of_mem _ hx
          have hvr : v < r := by
            have : r ∈ interleave (.cons c1 cs1) vs := by
              cases vs with
              | nil => rw [interleave_cons_nil]; exact List.mem_append_left _ hr1
              | cons w ws => rw [interleave_cons_cons]; exact List.mem_append_left _ hr1
            exact hgt r this
          obtain ⟨tl, htl⟩ : ∃ tl, ∀ c' : NodePtr,
              interleave (.cons c' cs1) vs = keys c' ++ tl := by
            cases vs with
            | nil => exact ⟨interleave cs1 [], fun c' => interleave_cons_nil c' cs1⟩
            | cons w ws =>
              exact ⟨w :: interleave cs1 ws, fun c' => interleave_cons_cons c' cs1 w ws⟩
          refine ⟨r, r :: vs, .cons c (.cons c1' cs1), ?_, ?_, ?_, ?_, ?_, hvr,
            ⟨keys c, rest ++ tl, ?_, ?_⟩, Or.inl (List.mem_cons_self _ _)⟩
          · rw [successorOf_internal_eq, hsucc]
          · rw [removeInternal_eq, hsucc, Option.some_bind, h1]; rfl
          · rw [wfChildren_cons_iff]
            refine ⟨hwf, fun x hx => ⟨(hab x hx).1, lt_trans (hab x hx).2 hvr⟩, ?_⟩
            cases vs with
            | nil =>
              rw [wfChildren_nil_iff] at hrest ⊢
              refine ⟨hrest.1, h3, ?_⟩
              intro x hx
              rw [h2] at hx
              rw [above_some]
              exact hsorted1.1 x hx
            | cons w ws =>
              rw [wfChildren_cons_iff] at hrest ⊢
              refine ⟨h3, ?_, hrest.2.2⟩
              intro x hx
              rw [h2] at hx
              refine ⟨?_, (hrest.2.1 x (hsub x hx)).2⟩
              rw [above_some]
              exact hsorted1.1 x hx
          · rw [List.pairwise_cons]
            refine ⟨?_, hs'.2⟩
            intro w hw
            cases vs with
            | nil => simp at hw
            | cons w0 ws =>
              rw [wfChildren_cons_iff] at hrest
              have hrw0 : r < w0 := (hrest.2.1 r hr1).2
              rcases List.mem_cons.mp hw with rfl | hw
              · exact hrw0
              · exact lt_trans hrw0 ((List.pairwise_cons.mp hs'.2).1 w hw)
          · intro w hw
            rcases List.mem_cons.mp hw with rfl | hw
            · exact habove_trans _ hvr
            · exact hlo w (List.mem_cons_of_mem _ hw)
          · rw [interleave_cons_cons, htl c1, hkeys]; simp
          · rw [interleave_cons_cons, htl c1', h2]
      · -- the search descends into the child to the left of `v`
        have hkv : k ∉ v :: vs := by
          intro hk
          rcases List.mem_cons.mp hk with rfl | hk
          · omega
          · have := hs'.1 k hk
            omega
        have hsepcs : isSeparatorAll cs k = false := by
          cases hcs : isSeparatorAll cs k with
          | false => rfl
          | true =>
            have := hgt k (isSeparatorAll_mem_interleave hrest hcs)
            omega
        have hsepc : isSeparator c k = true := by
          rcases hsep with hsep | hsep
          · exact absurd hsep hkv
          · simpa [isSeparatorAll, hsepcs] using hsep
        obtain ⟨r, c', h1, h2, h3, h4, ⟨pre, post, h5, h6⟩, h7⟩ :=
          ih c (by simp [Children.toList]) hwf hne.1 hsepc T
        refine ⟨r, v :: vs, .cons c' cs, ?_, ?_, ?_, hs, hlo, h4,
          ⟨pre, post ++ v :: interleave cs vs, ?_, ?_⟩, Or.inr (by simp [isSeparatorAll, h7])⟩
        · rw [successorOf_internal_gt vs c cs hkv, h1]
        · rw [removeInternal_gt hvk, h2]; rfl
        · rw [wfChildren_cons_iff]
          refine ⟨h3, ?_, hrest⟩
          intro x hx
          apply hab
          rw [h6] at hx
          rw [h5]
          simp only [List.mem_append, List.mem_cons] at hx ⊢
          tauto
        · rw [interleave_cons_cons, h5]; simp
        · rw [interleave_cons_cons, h6]; simp

/-- The recursive removal of a separator from a well-formed tree with non-empty leaves
promotes the in-order successor. -/
theorem removeNode_separator : ∀ (p : NodePtr), wf p = true → leavesNonEmpty p = true →
    ∀ k : Int, isSeparator p k = true → ∀ T : Finset Int, ∃ r p', Promoted p k T r p' := by
  intro p
  induction p using NodePtr.node_induct with
  | hnull => intro h; simp [wf_null] at h
  | hnode vals cs leaf ih =>
    intro h hne k hsep T
    rw [wf_node_iff] at h
    obtain ⟨hs, hc⟩ := h
    cases leaf with
    | true =>
      simp only [if_true] at hc
      subst hc
      simp [isSeparator, isSeparatorAll] at hsep
    | false =>
      simp only [Bool.false_eq_true, if_false] at hc
      have hne' : leavesNonEmptyAll cs = true := by
        simpa [leavesNonEmpty] using hne
      have hsep' : k ∈ vals ∨ isSeparatorAll cs k = true := by
        simpa [isSeparator] using hsep
      obtain ⟨r, vals', cs', h1, h2, h3, h4, _, h6, ⟨pre, post, h7, h8⟩, h9⟩ :=
        promote_internal k vals cs none hc hs (fun _ _ => rfl) hne'
          (fun c hc' hw hn hsp T => ih c hc' hw hn k hsp T) hsep' T
      refine ⟨r, .node vals' cs' false, h1, ?_, ?_, h6, ⟨pre, post, ?_, ?_⟩, ?_⟩
      · rw [removeNode_internal, h2]; rfl
      · rw [wf_node_iff]
        exact ⟨h4, by simpa using h3⟩
      · rw [keys_internal, h7]
      · rw [keys_internal, h8]
      · simpa [isSeparator] using h9

end MTree

/-! ## The final listing -/

theorem finalListFrom_newline (size : Nat) : ∀ (vs : List Int) (v : Int) (i : Nat),
    i + (vs.length + 1) = size → ∃ s : String, finalListFrom size i (v :: vs) = s ++ "\n" := by
  intro vs
  induction vs with
  | nil =>
    intro v i h
    have hi : i = size - 1 := by simp at h; omega
    exact ⟨toString v, by simp [finalListFrom, hi]⟩
  | cons w ws ih =>
    intro v i h
    obtain ⟨s, hs⟩ := ih w (i + 1) (by simp at h ⊢; omega)
    refine ⟨toString v ++ (if (i + 1) % 20 = 0 ∨ i = size - 1 then "\n" else " ") ++ s, ?_⟩
    rw [finalListFrom, hs, String.append_assoc, String.append_assoc, String.append_assoc]

theorem finalList_newline {vals : List Int} (h : vals ≠ []) :
    ∃ s : String, finalList vals = s ++ "\n" := by
  cases vals with
  | nil => exact absurd rfl h
  | cons v vs => exact finalListFrom_newline _ vs v 0 (by simp)

namespace MTree

/-! ## Keys held in a leaf -/

theorem isSeparator_rootOf (l : List Int) (k : Int) : isSeparator (rootOf l) k = false := by
  cases l <;> simp [rootOf, isSeparator, isSeparatorAll]

/-- On every state reached through the public interface no key is a separator. -/
theorem reachable_no_separator (m : Int) (hm : 2 ≤ m) (ops : List Op) :
    ∃ t0 t, new m = .ok t0 ∧ run t0 ops = some t ∧ ∀ k : Int, isSeparator t.root k = false := by
  obtain ⟨t, hrun, l, hroot, _, _⟩ := run_flat ops (flat_fresh m)
  exact ⟨_, t, new_ok hm, hrun, fun k => by rw [hroot]; exact isSeparator_rootOf l k⟩

end MTree

/-! ## Claims -/

namespace MTree

/-- C1: in every state reached from a freshly constructed index (`M >= 2`) by a finite
sequence of Insert, Remove and Rebuild calls (every such sequence runs without undefined
behaviour), `getAllValues` returns a strictly ascending sequence without duplicates. -/
theorem C1_sorted_invariant (m : Int) (hm : 2 ≤ m) (ops : List Op) :
    ∃ t0 t, new m = .ok t0 ∧ run t0 ops = some t ∧
      (getAllValues t).Pairwise (· < ·) ∧ (getAllValues t).Nodup := by
  obtain ⟨t, hrun, hf⟩ := run_flat ops (flat_fresh m)
  have hs := (getAllValues_flat hf).1
  exact ⟨_, t, new_ok hm, hrun, hs, sorted_nodup hs⟩

theorem C1_sorted_invariant_witness :
    ∃ t0 t, new 4 = .ok t0 ∧
      run t0 [Op.Insert 5, Op.Insert 1, Op.Remove 5, Op.Rebuild, Op.Insert 3] = some t ∧
      (getAllValues t).Pairwise (· < ·) ∧ (getAllValues t).Nodup :=
  C1_sorted_invariant 4 (by decide) _

/-- C2: for every index whose tree satisfies the data-model invariants (internal nodes
allowed), every tombstone set and every key `k`, `insert k` returns and `contains k` is true
afterwards, whether `k` was absent, already live, or tombstoned. -/
theorem C2_insert_then_contains (t : MTree) (h : WellFormed t) (k : Int) :
    ∃ t', insert t k = some t' ∧ contains t' k = some true := by
  obtain ⟨root, m, T⟩ := t
  rcases h with h | h
  · simp only at h
    subst h
    refine ⟨_, insert_rootOf [] m T k, ?_⟩
    rw [contains_rootOf]
    simp [found_ins]
  · simp only at h
    obtain ⟨p', h1, h2⟩ := insertInto_contains root h k
    cases root with
    | null => simp [wf_null] at h
    | node vals cs leaf =>
      by_cases hk : k ∈ T
      · exact ⟨⟨p', m, T.erase k⟩, by simp [insert, hk, h1], h2⟩
      · exact ⟨⟨p', m, T⟩, by simp [insert, hk, h1], h2⟩

theorem C2_insert_then_contains_witness :
    ∃ t', insert ⟨.node [5] (.cons (.node [1] .nil true) (.cons (.node [9] .nil true) .nil))
        false, 4, {5, 7}⟩ 5 = some t' ∧ contains t' 5 = some true :=
  C2_insert_then_contains _ (by decide) 5

/-- C3: for every index whose tree is a well-formed search tree with non-empty leaves
(internal nodes allowed; the tombstone set may be arbitrary) and every key `k`, the public
`remove k` returns and `contains k` is false afterwards, also when `k` was the separator of an
internal node. -/
theorem C3_remove_then_contains (t : MTree) (hwf : WellFormed t)
    (hne : leavesNonEmpty t.root = true) (k : Int) :
    ∃ t', remove t k = some t' ∧ contains t' k = some false := by
  obtain ⟨T', h⟩ := remove_spec hwf hne k
  refine ⟨_, h, ?_⟩
  rw [contains_rootOf]
  have hs := getAllValues_sorted hwf
  have hnot : ¬ found ((getAllValues t).erase k) k := by
    intro hf
    exact ((mem_erase_sorted hs k k).mp (found_mem hf)).1 rfl
  simp [hnot]

theorem C3_remove_then_contains_witness :
    ∃ t', remove ⟨.node [5] (.cons (.node [1] .nil true) (.cons (.node [9] .nil true) .nil))
        false, 4, {7}⟩ 5 = some t' ∧ contains t' 5 = some false :=
  C3_remove_then_contains _ (by decide) (by decide) 5

/-- C5: after any finite sequence of Insert, Remove and Rebuild calls on a freshly constructed
index, (1) no key returned by `getAllValues` is in the tombstone set, and (2) a key `k` is in
the tombstone set iff some `Remove k` of the sequence was executed while `k` was live and no
`Insert k` occurs after it. -/
theorem C5_tombstone_invariant (m : Int) (hm : 2 ≤ m) (ops : List Op) :
    ∃ t0 t, new m = .ok t0 ∧ run t0 ops = some t ∧
      (∀ x ∈ getAllValues t, x ∉ t.removedValues) ∧
      ∀ k : Int, k ∈ t.removedValues ↔
        ∃ i : Nat, ops[i]? = some (Op.Remove k) ∧
          (∃ ti, run t0 (ops.take i) = some ti ∧ k ∈ getAllValues ti) ∧
          ∀ j : Nat, i < j → ops[j]? ≠ some (Op.Insert k) := by
  obtain ⟨t, hrun, hf⟩ := run_flat ops (flat_fresh m)
  refine ⟨_, t, new_ok hm, hrun, (getAllValues_flat hf).2, ?_⟩
  intro k
  rw [run_tomb ops (flat_fresh m) hrun k]
  simp

theorem C5_tombstone_invariant_witness :
    ∃ t0 t, new 4 = .ok t0 ∧
      run t0 [Op.Insert 5, Op.Remove 5, Op.Remove 7, Op.Insert 7, Op.Remove 7] = some t ∧
      (∀ x ∈ getAllValues t, x ∉ t.removedValues) ∧
      ∀ k : Int, k ∈ t.removedValues ↔
        ∃ i : Nat, [Op.Insert 5, Op.Remove 5, Op.Remove 7, Op.Insert 7, Op.Remove 7][i]? =
            some (Op.Remove k) ∧
          (∃ ti, run t0 ([Op.Insert 5, Op.Remove 5, Op.Remove 7, Op.Insert 7,
            Op.Remove 7].take i) = some ti ∧ k ∈ getAllValues ti) ∧
          ∀ j : Nat, i < j → [Op.Insert 5, Op.Remove 5, Op.Remove 7, Op.Insert 7, Op.Remove 7][j]? ≠
            some (Op.Insert k) :=
  C5_tombstone_invariant 4 (by decide) _

/-- C6: for every state `s` reached from a freshly constructed index and every key `k`, running
`Insert k; Remove k; Insert k` from `s` and running a single `Insert k` from `s` both succeed
and end in states with the same `getAllValues` sequence, the same `contains` answers and the
same tombstone set. -/
theorem C6_resurrection_round_trip (m : Int) (hm : 2 ≤ m) (ops : List Op) (k : Int) :
    ∃ t0 s s1 s3, new m = .ok t0 ∧ run t0 ops = some s ∧
      insert s k = some s1 ∧
      run s [Op.Insert k, Op.Remove k, Op.Insert k] = some s3 ∧
      getAllValues s3 = getAllValues s1 ∧
      (∀ x, contains s3 x = contains s1 x) ∧
      s3.removedValues = s1.removedValues := by
  obtain ⟨s, hrun, l, hroot, hs, hd⟩ := run_flat ops (flat_fresh m)
  obtain ⟨root, m', T⟩ := s
  simp only at hroot hd
  subst hroot
  have h1 := insert_rootOf l m' T k
  have hs1 := ins_pairwise hs k
  have hd1 : ∀ x ∈ ins l k, x ∉ T.erase k := abs_disjoint hs hd (Op.Insert k)
  have hk1 : k ∈ ins l k := (mem_ins l k k).mpr (Or.inl rfl)
  have h2 := remove_rootOf hs1 m' hd1 k
  have h3 := insert_rootOf ((ins l k).erase k) m' (Insert.insert k (T.erase k)) k
  refine ⟨_, _, _, ⟨rootOf (ins l k), m', T.erase k⟩, new_ok hm, hrun, h1, ?_, rfl,
    fun _ => rfl, rfl⟩
  rw [run_cons]
  simp only [step, h1, Option.some_bind]
  rw [run_cons]
  simp only [step, h2, hk1, if_true, Option.some_bind]
  rw [run_cons]
  simp only [step, h3, Option.some_bind, run_nil]
  rw [ins_erase_ins hs k, Finset.erase_insert (by simp)]

theorem C6_resurrection_round_trip_witness :
    ∃ t0 s s1 s3, new 4 = .ok t0 ∧ run t0 [Op.Insert 9, Op.Insert 2, Op.Remove 7] = some s ∧
      insert s 7 = some s1 ∧
      run s [Op.Insert 7, Op.Remove 7, Op.Insert 7] = some s3 ∧
      getAllValues s3 = getAllValues s1 ∧
      (∀ x, contains s3 x = contains s1 x) ∧
      s3.removedValues = s1.removedValues :=
  C6_resurrection_round_trip 4 (by decide) _ 7

/-- C7: for every well-formed index with no live key in the tombstone set, `rebuildTree`
returns, `getAllValues` yields the identical sequence before and after it, and the tombstone
set is the same before and after it. -/
theorem C7_rebuild_preserves (t : MTree) (hwf : WellFormed t) (hd : NoLiveTombstone t) :
    ∃ t', rebuildTree t = some t' ∧ getAllValues t' = getAllValues t ∧
      t'.removedValues = t.removedValues :=
  ⟨_, rebuildTree_sorted t (getAllValues_sorted hwf) hd, keys_rootOf _, rfl⟩

theorem C7_rebuild_preserves_witness :
    ∃ t', rebuildTree ⟨.node [5] (.cons (.node [1] .nil true) (.cons (.node [9] .nil true)
        .nil)) false, 4, {7}⟩ = some t' ∧
      getAllValues t' = getAllValues ⟨.node [5] (.cons (.node [1] .nil true)
        (.cons (.node [9] .nil true) .nil)) false, 4, {7}⟩ ∧
      t'.removedValues = ({7} : Finset Int) :=
  C7_rebuild_preserves _ (by decide) (by decide)

/-- C8: for every well-formed index with no live key in the tombstone set and every key `k`
with `contains k = false`, the public `remove k` returns and leaves both the `getAllValues`
sequence and the tombstone set unchanged. -/
theorem C8_remove_absent_noop (t : MTree) (hwf : WellFormed t) (hd : NoLiveTombstone t)
    (k : Int) (hk : contains t k = some false) :
    ∃ t', remove t k = some t' ∧ getAllValues t' = getAllValues t ∧
      t'.removedValues = t.removedValues := by
  have h1 := removeNode_absent t.root k t.removedValues hk
  refine ⟨⟨rootOf (getAllValues t), t.M, t.removedValues⟩, ?_, keys_rootOf _, rfl⟩
  unfold remove
  simp only [h1]
  exact rebuildTree_sorted t (getAllValues_sorted hwf) hd

theorem C8_remove_absent_noop_witness :
    ∃ t', remove ⟨.node [5] (.cons (.node [1] .nil true) (.cons (.node [9] .nil true) .nil))
        false, 4, {7}⟩ 7 = some t' ∧
      getAllValues t' = getAllValues ⟨.node [5] (.cons (.node [1] .nil true)
        (.cons (.node [9] .nil true) .nil)) false, 4, {7}⟩ ∧
      t'.removedValues = ({7} : Finset Int) :=
  C8_remove_absent_noop _ (by decide) (by decide) 7 (by decide)

/-- C10: constructing with any `m < 2` throws (no instance is produced); constructing with any
`m >= 2` yields an index with absent root and empty tombstone set, for which `getAllValues`
is empty and `contains` answers false for every key. -/
theorem C10_config_validation (m : Int) :
    (m < 2 → ∃ e, new m = .error e) ∧
    (2 ≤ m → ∃ t, new m = .ok t ∧ t.root = .null ∧ t.removedValues = ∅ ∧
      getAllValues t = [] ∧ ∀ k, contains t k = some false) := by
  constructor
  · intro h
    exact ⟨"Invalid M value", by simp [new, h]⟩
  · intro h
    exact ⟨_, new_ok h, rfl, rfl, rfl, fun _ => rfl⟩

theorem C10_config_validation_witness :
    ((∃ e, new 0 = .error e) ∧ (∃ e, new 1 = .error e)) ∧
    ∃ t, new 2 = .ok t ∧ t.root = .null ∧ t.removedValues = ∅ ∧
      getAllValues t = [] ∧ ∀ k, contains t k = some false :=
  ⟨⟨(C10_config_validation 0).1 (by decide), (C10_config_validation 1).1 (by decide)⟩,
    (C10_config_validation 2).2 (by decide)⟩

/-- C11: the scenario of the specification. From an index constructed with `M = 4`, inserting
5, 1, 9, 3 gives `getAllValues = [1, 3, 5, 9]`; then `remove 5` gives `contains 5 = false` and
`getAllValues = [1, 3, 9]`; then `insert 5` gives `[1, 3, 5, 9]`; then `insert 3` returns the
very same state, so `getAllValues` is still `[1, 3, 5, 9]`. -/
theorem C11_scenario :
    ∃ t0 t1 t2 t3, new 4 = .ok t0 ∧
      run t0 [Op.Insert 5, Op.Insert 1, Op.Insert 9, Op.Insert 3] = some t1 ∧
      getAllValues t1 = [1, 3, 5, 9] ∧
      remove t1 5 = some t2 ∧ contains t2 5 = some false ∧ getAllValues t2 = [1, 3, 9] ∧
      insert t2 5 = some t3 ∧ getAllValues t3 = [1, 3, 5, 9] ∧
      insert t3 3 = some t3 ∧ getAllValues t3 = [1, 3, 5, 9] :=
  ⟨⟨.null, 4, ∅⟩, ⟨.node [1, 3, 5, 9] .nil true, 4, ∅⟩, ⟨.node [1, 3, 9] .nil true, 4, {5}⟩,
    ⟨.node [1, 3, 5, 9] .nil true, 4, ∅⟩, rfl, rfl, rfl, rfl, rfl, rfl, rfl, rfl, rfl, rfl⟩

/-- C12: on every tree that satisfies the data-model invariants (absent, or a well-formed
node: leaves without children, internal nodes with `len(keys) + 1` present children, strict
search ordering), `collectValues` emits every
key stored in any node exactly once (the output is a permutation of the stored keys and each
stored key occurs once in it), the output is strictly ascending, and for any two stored keys
`a < b` the key `a` appears before `b`. -/
theorem C12_enumeration_complete (p : NodePtr) (h : p = .null ∨ wf p = true) :
    (collectValues p []).Perm (storedKeys p) ∧
    (∀ x ∈ storedKeys p, (collectValues p []).count x = 1) ∧
    (collectValues p []).Pairwise (· < ·) ∧
    ∀ a b : Int, a ∈ storedKeys p → b ∈ storedKeys p → a < b →
      List.Sublist [a, b] (collectValues p []) := by
  have hperm : (keys p).Perm (storedKeys p) := by
    rcases h with h | h
    · subst h; simp [keys_null, storedKeys]
    · exact keys_perm_stored p h
  have hs : (keys p).Pairwise (· < ·) := by
    rcases h with h | h
    · subst h; simp [keys_null]
    · exact keys_sorted p h
  refine ⟨hperm, ?_, hs, ?_⟩
  · intro x hx
    exact List.count_eq_one_of_mem (sorted_nodup hs) (hperm.mem_iff.mpr hx)
  · intro a b ha hb hab
    exact sublist_pair_of_sorted hs (hperm.mem_iff.mpr ha) (hperm.mem_iff.mpr hb) hab

theorem C12_enumeration_complete_witness :
    (collectValues (.node [5, 8] (.cons (.node [1, 2] .nil true) (.cons (.node [] .nil true)
        (.cons (.node [9] .nil true) .nil))) false) []).Perm
      (storedKeys (.node [5, 8] (.cons (.node [1, 2] .nil true) (.cons (.node [] .nil true)
        (.cons (.node [9] .nil true) .nil))) false)) ∧
    (∀ x ∈ storedKeys (.node [5, 8] (.cons (.node [1, 2] .nil true)
        (.cons (.node [] .nil true) (.cons (.node [9] .nil true) .nil))) false),
      (collectValues (.node [5, 8] (.cons (.node [1, 2] .nil true) (.cons (.node [] .nil true)
        (.cons (.node [9] .nil true) .nil))) false) []).count x = 1) ∧
    (collectValues (.node [5, 8] (.cons (.node [1, 2] .nil true) (.cons (.node [] .nil true)
        (.cons (.node [9] .nil true) .nil))) false) []).Pairwise (· < ·) ∧
    ∀ a b : Int,
      a ∈ storedKeys (.node [5, 8] (.cons (.node [1, 2] .nil true)
        (.cons (.node [] .nil true) (.cons (.node [9] .nil true) .nil))) false) →
      b ∈ storedKeys (.node [5, 8] (.cons (.node [1, 2] .nil true)
        (.cons (.node [] .nil true) (.cons (.node [9] .nil true) .nil))) false) → a < b →
      List.Sublist [a, b] (collectValues (.node [5, 8] (.cons (.node [1, 2] .nil true)
        (.cons (.node [] .nil true) (.cons (.node [9] .nil true) .nil))) false) []) :=
  C12_enumeration_complete _ (Or.inr (by decide))

/-- C13: for every index whose tree satisfies the data-model invariants (internal nodes
allowed) and every key `k`, `contains k` returns, and it returns true iff `k` occurs in the
sequence returned by `getAllValues`; on an absent root it returns false. In the embedding
`contains` yields only the answer, as the C++ member is `const` and writes to no member, so
the tree and the tombstone set are untouched by it. -/
theorem C13_contains_agrees (t : MTree) (h : WellFormed t) (k : Int) :
    contains t k = some (decide (k ∈ getAllValues t)) ∧
    (t.root = .null → contains t k = some false) := by
  constructor
  · rcases h with h | h
    · simp [contains, getAllValues, h, containsFrom, collectValues]
    · exact containsFrom_spec t.root h k
  · intro h0
    simp [contains, h0, containsFrom]

theorem C13_contains_agrees_witness :
    contains ⟨.node [5] (.cons (.node [1] .nil true) (.cons (.node [9] .nil true) .nil))
        false, 4, {7}⟩ 9 =
      some (decide (9 ∈ getAllValues ⟨.node [5] (.cons (.node [1] .nil true)
        (.cons (.node [9] .nil true) .nil)) false, 4, {7}⟩)) ∧
    ((⟨.node [5] (.cons (.node [1] .nil true) (.cons (.node [9] .nil true) .nil))
        false, 4, {7}⟩ : MTree).root = .null →
      contains ⟨.node [5] (.cons (.node [1] .nil true) (.cons (.node [9] .nil true) .nil))
        false, 4, {7}⟩ 9 = some false) :=
  C13_contains_agrees _ (by decide) 9

/-- C14: for every well-formed tree with non-empty leaves and every key `k` that is a separator
of an internal node, the recursive removal of `k` (before the rebuild) returns; it overwrites
`k` with its in-order successor `r` (the first key of the leftmost leaf of the child right of
`k`, which directly follows `k` in the enumeration): afterwards `r` is a separator, `k` is
stored nowhere, and `r` is stored exactly once, so it was erased from its leaf; the new tree
still satisfies the data-model invariants (strict search ordering) and enumerates exactly the
previous sequence with `k` deleted. -/
theorem C14_successor_promotion (p : NodePtr) (hwf : wf p = true)
    (hne : leavesNonEmpty p = true) (k : Int) (hk : isSeparator p k = true)
    (T : Finset Int) :
    ∃ r p' T', successorOf p k = some r ∧ removeNode p k T = some (p', T') ∧
      (∃ pre post, collectValues p [] = pre ++ k :: r :: post) ∧
      isSeparator p' r = true ∧ k ∉ storedKeys p' ∧ (storedKeys p').count r = 1 ∧
      wf p' = true ∧
      collectValues p' [] = (collectValues p []).erase k := by
  obtain ⟨r, p', h1, h2, h3, _, ⟨pre, post, h5, h6⟩, h7⟩ := removeNode_separator p hwf hne k hk T
  obtain ⟨p2, T2, h8, h9⟩ := removeNode_spec p hwf hne k T
  rw [h2] at h8
  have hp : p2 = p' := by
    have := Option.some.inj h8
    exact (congrArg Prod.fst this).symm
  subst hp
  have hs := keys_sorted p hwf
  have hs' := keys_sorted p2 h3
  have hperm := keys_perm_stored p2 h3
  have hknot : k ∉ keys p2 := by
    rw [h9]
    intro hmem
    exact ((mem_erase_sorted hs k k).mp hmem).1 rfl
  have hr : r ∈ keys p2 := by
    rw [h6]; simp
  refine ⟨r, p2, _, h1, h2, ⟨pre, post, h5⟩, h7, ?_, ?_, h3, h9⟩
  · exact fun hmem => hknot (hperm.mem_iff.mpr hmem)
  · rw [← hperm.count_eq]
    exact List.count_eq_one_of_mem (sorted_nodup hs') hr

theorem C14_successor_promotion_witness :
    ∃ r p' T', successorOf (.node [5, 8] (.cons (.node [1, 2] .nil true)
        (.cons (.node [6, 7] .nil true) (.cons (.node [9] .nil true) .nil))) false) 5 = some r ∧
      removeNode (.node [5, 8] (.cons (.node [1, 2] .nil true)
        (.cons (.node [6, 7] .nil true) (.cons (.node [9] .nil true) .nil))) false) 5 ∅ =
        some (p', T') ∧
      (∃ pre post, collectValues (.node [5, 8] (.cons (.node [1, 2] .nil true)
        (.cons (.node [6, 7] .nil true) (.cons (.node [9] .nil true) .nil))) false) [] =
        pre ++ 5 :: r :: post) ∧
      isSeparator p' r = true ∧ 5 ∉ storedKeys p' ∧ (storedKeys p').count r = 1 ∧
      wf p' = true ∧
      collectValues p' [] = (collectValues (.node [5, 8] (.cons (.node [1, 2] .nil true)
        (.cons (.node [6, 7] .nil true) (.cons (.node [9] .nil true) .nil))) false) []).erase 5 :=
  C14_successor_promotion _ (by decide) (by decide) 5 (by decide) ∅

/-- C15: for every well-formed tree with non-empty leaves and every key `k` that is a separator
of an internal node, the recursive removal of `k` (before the rebuild) returns and changes the
tombstone set by adding exactly the in-order successor `r` of `k`, the value vacated from a
leaf; `r` differs from `k`, so `k` itself is not added. -/
theorem C15_tombstones_successor (p : NodePtr) (hwf : wf p = true)
    (hne : leavesNonEmpty p = true) (k : Int) (hk : isSeparator p k = true)
    (T : Finset Int) :
    ∃ r p' T', successorOf p k = some r ∧ removeNode p k T = some (p', T') ∧
      T' = Insert.insert r T ∧ r ≠ k ∧ (k ∈ T' ↔ k ∈ T) := by
  obtain ⟨r, p', h1, h2, _, h4, _, _⟩ := removeNode_separator p hwf hne k hk T
  have hne' : r ≠ k := by omega
  refine ⟨r, p', _, h1, h2, rfl, hne', ?_⟩
  simp only [Finset.mem_insert]
  constructor
  · rintro (h | h)
    · exact absurd h.symm hne'
    · exact h
  · exact fun h => Or.inr h

theorem C15_tombstones_successor_witness :
    ∃ r p' T', successorOf (.node [5, 8] (.cons (.node [1, 2] .nil true)
        (.cons (.node [6, 7] .nil true) (.cons (.node [9] .nil true) .nil))) false) 8 = some r ∧
      removeNode (.node [5, 8] (.cons (.node [1, 2] .nil true)
        (.cons (.node [6, 7] .nil true) (.cons (.node [9] .nil true) .nil))) false) 8 {3} =
        some (p', T') ∧
      T' = Insert.insert r {3} ∧ r ≠ 8 ∧ ((8 : Int) ∈ T' ↔ (8 : Int) ∈ ({3} : Finset Int)) :=
  C15_tombstones_successor _ (by decide) (by decide) 8 (by decide) {3}

/-- C16: for every index whose tree satisfies the data-model invariants and every key `k`,
`insert k` returns, on the normal and on the resurrection path alike. An absent root becomes
a single leaf holding exactly `[k]`. Otherwise the skeleton of the tree (number of nodes, each
node's `isLeaf` flag and child list, the keys of each internal node) is unchanged, and the
leaf key vectors change in at most one place, where the strictly ascending vector `vs` becomes
the strictly ascending vector obtained by `insertValue`: either `vs` itself or `vs` with `k`
put in at one position. -/
theorem C16_insert_frame (t : MTree) (h : WellFormed t) (k : Int) :
    ∃ t', insert t k = some t' ∧
      (t.root = .null → t'.root = .node [k] .nil true) ∧
      (t.root ≠ .null → skeleton t'.root = skeleton t.root ∧
        ∃ pre vs vs' post, leafVectors t.root = pre ++ vs :: post ∧
          leafVectors t'.root = pre ++ vs' :: post ∧
          vs.Pairwise (· < ·) ∧ vs'.Pairwise (· < ·) ∧
          (vs' = vs ∨ (k ∉ vs ∧ ∃ i : Nat, vs' = vs.take i ++ k :: vs.drop i))) := by
  obtain ⟨root, m, T⟩ := t
  rcases h with h | h
  · simp only at h
    subst h
    exact ⟨_, insert_rootOf [] m T k, fun _ => by simp [rootOf, ins_nil],
      fun hne => absurd rfl hne⟩
  · simp only at h
    obtain ⟨p', h1, h2, pre, vs, post, h3, h4, h5⟩ := insertInto_frame root h k
    have hshape : ins vs k = vs ∨
        (k ∉ vs ∧ ∃ i : Nat, ins vs k = vs.take i ++ k :: vs.drop i) := by
      rcases ins_shape vs k with h6 | h6 | ⟨hk, _⟩
      · exact Or.inl h6
      · exact Or.inr h6
      · exact Or.inl (ins_of_mem h5 hk)
    have hres : skeleton p' = skeleton root ∧
        ∃ pre vs vs' post, leafVectors root = pre ++ vs :: post ∧
          leafVectors p' = pre ++ vs' :: post ∧
          vs.Pairwise (· < ·) ∧ vs'.Pairwise (· < ·) ∧
          (vs' = vs ∨ (k ∉ vs ∧ ∃ i : Nat, vs' = vs.take i ++ k :: vs.drop i)) :=
      ⟨h2, pre, vs, ins vs k, post, h3, h4, h5, ins_pairwise h5 k, hshape⟩
    cases root with
    | null => simp [wf_null] at h
    | node vals cs leaf =>
      by_cases hk : k ∈ T
      · exact ⟨⟨p', m, T.erase k⟩, by simp [insert, hk, h1], fun h0 => by simp at h0,
          fun _ => hres⟩
      · exact ⟨⟨p', m, T⟩, by simp [insert, hk, h1], fun h0 => by simp at h0, fun _ => hres⟩

theorem C16_insert_frame_witness :
    ∃ t', insert ⟨.node [5] (.cons (.node [1] .nil true) (.cons (.node [9] .nil true) .nil))
        false, 4, {7}⟩ 7 = some t' ∧
      ((⟨.node [5] (.cons (.node [1] .nil true) (.cons (.node [9] .nil true) .nil))
        false, 4, {7}⟩ : MTree).root = .null → t'.root = .node [7] .nil true) ∧
      ((⟨.node [5] (.cons (.node [1] .nil true) (.cons (.node [9] .nil true) .nil))
        false, 4, {7}⟩ : MTree).root ≠ .null →
        skeleton t'.root = skeleton (⟨.node [5] (.cons (.node [1] .nil true)
          (.cons (.node [9] .nil true) .nil)) false, 4, {7}⟩ : MTree).root ∧
        ∃ pre vs vs' post, leafVectors (⟨.node [5] (.cons (.node [1] .nil true)
            (.cons (.node [9] .nil true) .nil)) false, 4, {7}⟩ : MTree).root =
            pre ++ vs :: post ∧
          leafVectors t'.root = pre ++ vs' :: post ∧
          vs.Pairwise (· < ·) ∧ vs'.Pairwise (· < ·) ∧
          (vs' = vs ∨ (7 ∉ vs ∧ ∃ i : Nat, vs' = vs.take i ++ 7 :: vs.drop i))) :=
  C16_insert_frame _ (by decide) 7

/-- C17 at a failing input: for the empty key sequence, which `getAllValues` returns for a
freshly constructed index, the driver's loop prints nothing after `"Final list: "`, so the
text does not end with a newline character; for a non-empty sequence such as `[1, 2]` it
does. -/
theorem C17_empty_list_no_newline :
    (∃ t, new 2 = .ok t ∧ getAllValues t = [] ∧ finalList (getAllValues t) = "" ∧
      (finalList (getAllValues t)).endsWith "\n" = false) ∧
    finalList [1, 2] = "1 2\n" := by
  refine ⟨⟨⟨.null, 2, ∅⟩, rfl, rfl, rfl, by decide⟩, by decide⟩

/-- C18: in every state reached from a freshly constructed index by a finite sequence of
public `insert`, `remove` and `rebuildTree` calls, the root is absent or a single leaf without
children whose key sequence is non-empty and strictly ascending; also the tree handed from
the recursive removal to the rebuild inside a further `remove` is a leaf without children. -/
theorem C18_reachable_flat (m : Int) (hm : 2 ≤ m) (ops : List Op) :
    ∃ t0 t, new m = .ok t0 ∧ run t0 ops = some t ∧
      (t.root = .null ∨ ∃ vals : List Int, t.root = .node vals .nil true ∧ vals ≠ [] ∧
        vals.Pairwise (· < ·)) ∧
      ∀ (k : Int), ∃ p' T', removeNode t.root k t.removedValues = some (p', T') ∧
        (p' = .null ∨ ∃ vals : List Int, p' = .node vals .nil true) := by
  obtain ⟨t, hrun, l, hroot, hs, hd⟩ := run_flat ops (flat_fresh m)
  refine ⟨_, t, new_ok hm, hrun, ?_, ?_⟩
  · rw [hroot]
    cases l with
    | nil => exact Or.inl rfl
    | cons v vs => exact Or.inr ⟨v :: vs, rfl, by simp, hs⟩
  · intro k
    rw [hroot, removeNode_rootOf]
    by_cases hf : found l k
    · exact ⟨.node (rem l k) .nil true, Insert.insert k t.removedValues,
        by simp only [hf, if_true], Or.inr ⟨_, rfl⟩⟩
    · refine ⟨rootOf l, t.removedValues, by simp only [hf, if_false], ?_⟩
      cases l with
      | nil => exact Or.inl rfl
      | cons v vs => exact Or.inr ⟨v :: vs, rfl⟩

theorem C18_reachable_flat_witness :
    ∃ t0 t, new 3 = .ok t0 ∧
      run t0 [Op.Insert 2, Op.Insert 8, Op.Remove 2, Op.Rebuild, Op.Insert 4] = some t ∧
      (t.root = .null ∨ ∃ vals : List Int, t.root = .node vals .nil true ∧ vals ≠ [] ∧
        vals.Pairwise (· < ·)) ∧
      ∀ (k : Int), ∃ p' T', removeNode t.root k t.removedValues = some (p', T') ∧
        (p' = .null ∨ ∃ vals : List Int, p' = .node vals .nil true) :=
  C18_reachable_flat 3 (by decide) _

/-- C19: for every finite sequence of Insert, Remove and Rebuild calls applied to a freshly
constructed index, `getAllValues` returns exactly the ascending list of the set obtained by
replaying the sequence on the empty set (`Insert k` adds `k`, `Remove k` deletes `k`,
`Rebuild` does nothing); in particular inserting the same keys in two different orders ends
with the same `getAllValues`. -/
theorem C19_refines_set (m : Int) (hm : 2 ≤ m) :
    ∃ t0, new m = .ok t0 ∧
      (∀ ops : List Op, ∃ t, run t0 ops = some t ∧
        getAllValues t = (setRun ops).sort (· ≤ ·)) ∧
      (∀ ks₁ ks₂ : List Int, ks₁.Perm ks₂ →
        ∃ t₁ t₂, run t0 (ks₁.map Op.Insert) = some t₁ ∧ run t0 (ks₂.map Op.Insert) = some t₂ ∧
          getAllValues t₁ = getAllValues t₂) := by
  have main : ∀ ops : List Op, ∃ t, run ⟨.null, m, ∅⟩ ops = some t ∧
      getAllValues t = (setRun ops).sort (· ≤ ·) := by
    intro ops
    obtain ⟨t, hrun, hp, hmem⟩ := run_refines ops [] m ∅ ∅ List.Pairwise.nil (by simp)
      (by simp)
    exact ⟨t, hrun, sorted_eq_sort hp _ hmem⟩
  refine ⟨_, new_ok hm, main, ?_⟩
  intro ks₁ ks₂ hperm
  obtain ⟨t₁, h₁, e₁⟩ := main (ks₁.map Op.Insert)
  obtain ⟨t₂, h₂, e₂⟩ := main (ks₂.map Op.Insert)
  refine ⟨t₁, t₂, h₁, h₂, ?_⟩
  rw [e₁, e₂, setRun_inserts, setRun_inserts, List.toFinset_eq_of_perm _ _ hperm]

theorem C19_refines_set_witness :
    ∃ t0, new 2 = .ok t0 ∧
      (∀ ops : List Op, ∃ t, run t0 ops = some t ∧
        getAllValues t = (setRun ops).sort (· ≤ ·)) ∧
      (∀ ks₁ ks₂ : List Int, ks₁.Perm ks₂ →
        ∃ t₁ t₂, run t0 (ks₁.map Op.Insert) = some t₁ ∧ run t0 (ks₂.map Op.Insert) = some t₂ ∧
          getAllValues t₁ = getAllValues t₂) :=
  C19_refines_set 2 (by decide)

end MTree
